import Mathlib

/-!
Verification of the streaming relay of `sos-chatbot` (`src/lib/streaming.ts`,
`src/hooks/useGenAI.ts`).

The development shallowly embeds the wire protocol and its encoder/decoder:

* JS strings are modelled as `List Char` (sequences of Unicode scalar values;
  the repository never manufactures lone surrogates, so this is faithful).
* Byte streams are `List Nat` with every element below 256.
* `utf8EncodeChar`/`utf8Encode` model the platform `TextEncoder`.
* `decodeGreedy` models the platform streaming `TextDecoder` used by
  `StreamProcessor` (`decode(value, stream: true)`): it decodes the maximal
  complete UTF-8 portion of its input and returns the trailing incomplete
  sequence as the decoder's pending state.  Invalid bytes become U+FFFD; the
  analysed streams are valid UTF-8, so only the valid portion of the model is
  ever exercised by the theorems.
* A small JSON value type with a fuel-indexed recursive-descent parser models
  `JSON.parse`, and the frame serialisations model `JSON.stringify` applied to
  the object literals in `createStreamResponse`.
-/

/-! ## UTF-8 layer: TextEncoder / streaming TextDecoder -/

/-- UTF-8 encoding of one scalar value, as in the platform `TextEncoder`. -/
def utf8EncodeChar (c : Char) : List Nat :=
  let v := c.toNat
  if v < 128 then [v]
  else if v < 2048 then [192 + v / 64, 128 + v % 64]
  else if v < 65536 then [224 + v / 4096, 128 + (v / 64) % 64, 128 + v % 64]
  else [240 + v / 262144, 128 + (v / 4096) % 64, 128 + (v / 64) % 64, 128 + v % 64]

/-- `TextEncoder.encode` on a whole string. -/
def utf8Encode (s : List Char) : List Nat := (s.map utf8EncodeChar).flatten

/-- Is `b` a UTF-8 continuation byte? -/
def isCont (b : Nat) : Bool := 128 ≤ b && b < 192

/-- The replacement character U+FFFD emitted for invalid input. -/
def repl : Char := Char.ofNat 65533

/-- Prepend a decoded character to a decoding result. -/
def consChar (c : Char) (r : List Char × List Nat) : List Char × List Nat :=
  (c :: r.1, r.2)

/-- Streaming UTF-8 decode: the decoded text of the maximal complete portion,
plus the trailing incomplete (but so far valid) sequence, which the platform
`TextDecoder` holds as internal state between `decode(…, stream: true)`
calls. -/
def decodeGreedy : List Nat → List Char × List Nat
  | [] => ([], [])
  | b :: rest =>
    if b < 128 then consChar (Char.ofNat b) (decodeGreedy rest)
    else if b < 194 then consChar repl (decodeGreedy rest)
    else if b < 224 then
      match rest with
      | [] => ([], [b])
      | c1 :: rest1 =>
        if isCont c1 then consChar (Char.ofNat ((b - 192) * 64 + (c1 - 128))) (decodeGreedy rest1)
        else consChar repl (decodeGreedy (c1 :: rest1))
    else if b < 240 then
      match rest with
      | [] => ([], [b])
      | c1 :: rest1 =>
        if isCont c1 then
          match rest1 with
          | [] => ([], [b, c1])
          | c2 :: rest2 =>
            if isCont c2 then
              consChar (Char.ofNat ((b - 224) * 4096 + (c1 - 128) * 64 + (c2 - 128)))
                (decodeGreedy rest2)
            else consChar repl (decodeGreedy (c1 :: c2 :: rest2))
        else consChar repl (decodeGreedy (c1 :: rest1))
    else if b < 245 then
      match rest with
      | [] => ([], [b])
      | c1 :: rest1 =>
        if isCont c1 then
          match rest1 with
          | [] => ([], [b, c1])
          | c2 :: rest2 =>
            if isCont c2 then
              match rest2 with
              | [] => ([], [b, c1, c2])
              | c3 :: rest3 =>
                if isCont c3 then
                  consChar
                    (Char.ofNat
                      ((b - 240) * 262144 + (c1 - 128) * 4096 + (c2 - 128) * 64 + (c3 - 128)))
                    (decodeGreedy rest3)
                else consChar repl (decodeGreedy (c1 :: c2 :: c3 :: rest3))
            else consChar repl (decodeGreedy (c1 :: c2 :: rest2))
        else consChar repl (decodeGreedy (c1 :: rest1))
    else consChar repl (decodeGreedy rest)

example : decodeGreedy [104, 105] = (['h', 'i'], []) := by decide

example : decodeGreedy [104, 194] = (['h'], [194]) := by decide

example : decodeGreedy (utf8Encode ['é']) = (['é'], []) := by decide

/-! Step equations for `decodeGreedy`, one per branch of the byte classifier. -/

theorem dg_ascii (b0 : Nat) (rest : List Nat) (h : b0 < 128) :
    decodeGreedy (b0 :: rest) = consChar (Char.ofNat b0) (decodeGreedy rest) := by
  rw [decodeGreedy.eq_def]; simp [h]

theorem dg_badLead (b0 : Nat) (rest : List Nat) (h1 : ¬ b0 < 128) (h2 : b0 < 194) :
    decodeGreedy (b0 :: rest) = consChar repl (decodeGreedy rest) := by
  rw [decodeGreedy.eq_def]; simp [h1, h2]

theorem dg_hiLead (b0 : Nat) (rest : List Nat) (h : ¬ b0 < 245) :
    decodeGreedy (b0 :: rest) = consChar repl (decodeGreedy rest) := by
  rw [decodeGreedy.eq_def]
  simp [h, show ¬ b0 < 128 by omega, show ¬ b0 < 194 by omega,
    show ¬ b0 < 224 by omega, show ¬ b0 < 240 by omega]

theorem dg_pend1 (b0 : Nat) (h1 : ¬ b0 < 194) (h2 : b0 < 245) :
    decodeGreedy [b0] = ([], [b0]) := by
  rw [decodeGreedy.eq_def]
  by_cases h3 : b0 < 224
  · simp [show ¬ b0 < 128 by omega, h1, h3]
  · by_cases h4 : b0 < 240
    · simp [show ¬ b0 < 128 by omega, h1, h3, h4]
    · simp [show ¬ b0 < 128 by omega, h1, h3, h4, h2]

theorem dg_notCont1 (b0 c1 : Nat) (rest1 : List Nat) (h1 : ¬ b0 < 194) (h2 : b0 < 245)
    (hc1 : ¬ isCont c1 = true) :
    decodeGreedy (b0 :: c1 :: rest1) = consChar repl (decodeGreedy (c1 :: rest1)) := by
  rw [decodeGreedy.eq_def]
  by_cases h3 : b0 < 224
  · simp [show ¬ b0 < 128 by omega, h1, h3, hc1]
  · by_cases h4 : b0 < 240
    · simp [show ¬ b0 < 128 by omega, h1, h3, h4, hc1]
    · simp [show ¬ b0 < 128 by omega, h1, h3, h4, h2, hc1]

theorem dg2_char (b0 c1 : Nat) (rest1 : List Nat) (h1 : ¬ b0 < 194) (h2 : b0 < 224)
    (hc1 : isCont c1 = true) :
    decodeGreedy (b0 :: c1 :: rest1)
      = consChar (Char.ofNat ((b0 - 192) * 64 + (c1 - 128))) (decodeGreedy rest1) := by
  rw [decodeGreedy.eq_def]
  simp [show ¬ b0 < 128 by omega, h1, h2, hc1]

theorem dg_pend2 (b0 c1 : Nat) (h1 : ¬ b0 < 224) (h2 : b0 < 245) (hc1 : isCont c1 = true) :
    decodeGreedy [b0, c1] = ([], [b0, c1]) := by
  rw [decodeGreedy.eq_def]
  by_cases h4 : b0 < 240
  · simp [show ¬ b0 < 128 by omega, show ¬ b0 < 194 by omega, h1, h4, hc1]
  · simp [show ¬ b0 < 128 by omega, show ¬ b0 < 194 by omega, h1, h4, h2, hc1]

theorem dg_notCont2 (b0 c1 c2 : Nat) (rest2 : List Nat) (h1 : ¬ b0 < 224) (h2 : b0 < 245)
    (hc1 : isCont c1 = true) (hc2 : ¬ isCont c2 = true) :
    decodeGreedy (b0 :: c1 :: c2 :: rest2) = consChar repl (decodeGreedy (c1 :: c2 :: rest2)) := by
  rw [decodeGreedy.eq_def]
  by_cases h4 : b0 < 240
  · simp [show ¬ b0 < 128 by omega, show ¬ b0 < 194 by omega, h1, h4, hc1, hc2]
  · simp [show ¬ b0 < 128 by omega, show ¬ b0 < 194 by omega, h1, h4, h2, hc1, hc2]

theorem dg3_char (b0 c1 c2 : Nat) (rest2 : List Nat) (h1 : ¬ b0 < 224) (h2 : b0 < 240)
    (hc1 : isCont c1 = true) (hc2 : isCont c2 = true) :
    decodeGreedy (b0 :: c1 :: c2 :: rest2)
      = consChar (Char.ofNat ((b0 - 224) * 4096 + (c1 - 128) * 64 + (c2 - 128)))
          (decodeGreedy rest2) := by
  rw [decodeGreedy.eq_def]
  simp [show ¬ b0 < 128 by omega, show ¬ b0 < 194 by omega, h1, h2, hc1, hc2]

theorem dg_pend3 (b0 c1 c2 : Nat) (h1 : ¬ b0 < 240) (h2 : b0 < 245)
    (hc1 : isCont c1 = true) (hc2 : isCont c2 = true) :
    decodeGreedy [b0, c1, c2] = ([], [b0, c1, c2]) := by
  rw [decodeGreedy.eq_def]
  simp [show ¬ b0 < 128 by omega, show ¬ b0 < 194 by omega, show ¬ b0 < 224 by omega,
    h1, h2, hc1, hc2]

theorem dg_notCont3 (b0 c1 c2 c3 : Nat) (rest3 : List Nat) (h1 : ¬ b0 < 240) (h2 : b0 < 245)
    (hc1 : isCont c1 = true) (hc2 : isCont c2 = true) (hc3 : ¬ isCont c3 = true) :
    decodeGreedy (b0 :: c1 :: c2 :: c3 :: rest3)
      = consChar repl (decodeGreedy (c1 :: c2 :: c3 :: rest3)) := by
  rw [decodeGreedy.eq_def]
  simp [show ¬ b0 < 128 by omega, show ¬ b0 < 194 by omega, show ¬ b0 < 224 by omega,
    h1, h2, hc1, hc2, hc3]

theorem dg4_char (b0 c1 c2 c3 : Nat) (rest3 : List Nat) (h1 : ¬ b0 < 240) (h2 : b0 < 245)
    (hc1 : isCont c1 = true) (hc2 : isCont c2 = true) (hc3 : isCont c3 = true) :
    decodeGreedy (b0 :: c1 :: c2 :: c3 :: rest3)
      = consChar
          (Char.ofNat ((b0 - 240) * 262144 + (c1 - 128) * 4096 + (c2 - 128) * 64 + (c3 - 128)))
          (decodeGreedy rest3) := by
  rw [decodeGreedy.eq_def]
  simp [show ¬ b0 < 128 by omega, show ¬ b0 < 194 by omega, show ¬ b0 < 224 by omega,
    h1, h2, hc1, hc2, hc3]

/-- Streaming decode is compositional: feeding `a` and then `b` (threading the
pending bytes as the platform `TextDecoder` does between `stream: true` calls)
equals feeding `a ++ b` at once. -/
theorem decodeGreedy_append :
    ∀ (a b : List Nat),
      decodeGreedy (a ++ b) =
        ((decodeGreedy a).1 ++ (decodeGreedy ((decodeGreedy a).2 ++ b)).1,
         (decodeGreedy ((decodeGreedy a).2 ++ b)).2)
  | [], b => by simp [decodeGreedy]
  | b0 :: rest, b => by
    by_cases h1 : b0 < 128
    · have ih := decodeGreedy_append rest b
      simp only [List.cons_append, dg_ascii _ _ h1, consChar, ih]
    · by_cases h2 : b0 < 194
      · have ih := decodeGreedy_append rest b
        simp only [List.cons_append, dg_badLead _ _ h1 h2, consChar, ih]
      · by_cases h3 : b0 < 224
        · match rest with
          | [] =>
            rw [dg_pend1 b0 h2 (by omega)]
            simp
          | c1 :: rest1 =>
            by_cases hc1 : isCont c1 = true
            · have ih := decodeGreedy_append rest1 b
              simp only [List.cons_append, dg2_char _ _ _ h2 h3 hc1, consChar, ih]
            · have ih := decodeGreedy_append (c1 :: rest1) b
              simp only [List.cons_append] at ih
              simp only [List.cons_append, dg_notCont1 _ _ _ h2 (by omega) hc1, consChar, ih]
        · by_cases h4 : b0 < 240
          · match rest with
            | [] =>
              rw [dg_pend1 b0 h2 (by omega)]
              simp
            | c1 :: rest1 =>
              by_cases hc1 : isCont c1 = true
              · match rest1 with
                | [] =>
                  rw [dg_pend2 b0 c1 h3 (by omega) hc1]
                  simp
                | c2 :: rest2 =>
                  by_cases hc2 : isCont c2 = true
                  · have ih := decodeGreedy_append rest2 b
                    simp only [List.cons_append, dg3_char _ _ _ _ h3 h4 hc1 hc2, consChar, ih]
                  · have ih := decodeGreedy_append (c1 :: c2 :: rest2) b
                    simp only [List.cons_append] at ih
                    simp only [List.cons_append, dg_notCont2 _ _ _ _ h3 (by omega) hc1 hc2,
                      consChar, ih]
              · have ih := decodeGreedy_append (c1 :: rest1) b
                simp only [List.cons_append] at ih
                simp only [List.cons_append, dg_notCont1 _ _ _ h2 (by omega) hc1, consChar, ih]
          · by_cases h5 : b0 < 245
            · match rest with
              | [] =>
                rw [dg_pend1 b0 h2 h5]
                simp
              | c1 :: rest1 =>
                by_cases hc1 : isCont c1 = true
                · match rest1 with
                  | [] =>
                    rw [dg_pend2 b0 c1 h3 h5 hc1]
                    simp
                  | c2 :: rest2 =>
                    by_cases hc2 : isCont c2 = true
                    · match rest2 with
                      | [] =>
                        rw [dg_pend3 b0 c1 c2 h4 h5 hc1 hc2]
                        simp
                      | c3 :: rest3 =>
                        by_cases hc3 : isCont c3 = true
                        · have ih := decodeGreedy_append rest3 b
                          simp only [List.cons_append, dg4_char _ _ _ _ _ h4 h5 hc1 hc2 hc3,
                            consChar, ih]
                        · have ih := decodeGreedy_append (c1 :: c2 :: c3 :: rest3) b
                          simp only [List.cons_append] at ih
                          simp only [List.cons_append, dg_notCont3 _ _ _ _ _ h4 h5 hc1 hc2 hc3,
                            consChar, ih]
                    · have ih := decodeGreedy_append (c1 :: c2 :: rest2) b
                      simp only [List.cons_append] at ih
                      simp only [List.cons_append, dg_notCont2 _ _ _ _ h3 h5 hc1 hc2, consChar, ih]
                · have ih := decodeGreedy_append (c1 :: rest1) b
                  simp only [List.cons_append] at ih
                  simp only [List.cons_append, dg_notCont1 _ _ _ h2 h5 hc1, consChar, ih]
            · have ih := decodeGreedy_append rest b
              simp only [List.cons_append, dg_hiLead _ _ h5, consChar, ih]
termination_by a _ => a.length

/-- The pending bytes left by a streaming decode are an incomplete sequence:
decoding them alone produces no character and leaves them pending again. -/
theorem decodeGreedy_pending :
    ∀ a : List Nat, decodeGreedy ((decodeGreedy a).2) = ([], (decodeGreedy a).2)
  | [] => by simp [decodeGreedy]
  | b0 :: rest => by
    by_cases h1 : b0 < 128
    · rw [dg_ascii _ _ h1]
      exact decodeGreedy_pending rest
    · by_cases h2 : b0 < 194
      · rw [dg_badLead _ _ h1 h2]
        exact decodeGreedy_pending rest
      · by_cases h3 : b0 < 224
        · match rest with
          | [] => rw [dg_pend1 b0 h2 (by omega)]; exact dg_pend1 b0 h2 (by omega)
          | c1 :: rest1 =>
            by_cases hc1 : isCont c1 = true
            · rw [dg2_char _ _ _ h2 h3 hc1]
              exact decodeGreedy_pending rest1
            · rw [dg_notCont1 _ _ _ h2 (by omega) hc1]
              exact decodeGreedy_pending (c1 :: rest1)
        · by_cases h4 : b0 < 240
          · match rest with
            | [] => rw [dg_pend1 b0 h2 (by omega)]; exact dg_pend1 b0 h2 (by omega)
            | c1 :: rest1 =>
              by_cases hc1 : isCont c1 = true
              · match rest1 with
                | [] =>
                  rw [dg_pend2 b0 c1 h3 (by omega) hc1]
                  exact dg_pend2 b0 c1 h3 (by omega) hc1
                | c2 :: rest2 =>
                  by_cases hc2 : isCont c2 = true
                  · rw [dg3_char _ _ _ _ h3 h4 hc1 hc2]
                    exact decodeGreedy_pending rest2
                  · rw [dg_notCont2 _ _ _ _ h3 (by omega) hc1 hc2]
                    exact decodeGreedy_pending (c1 :: c2 :: rest2)
              · rw [dg_notCont1 _ _ _ h2 (by omega) hc1]
                exact decodeGreedy_pending (c1 :: rest1)
          · by_cases h5 : b0 < 245
            · match rest with
              | [] => rw [dg_pend1 b0 h2 h5]; exact dg_pend1 b0 h2 h5
              | c1 :: rest1 =>
                by_cases hc1 : isCont c1 = true
                · match rest1 with
                  | [] =>
                    rw [dg_pend2 b0 c1 h3 h5 hc1]
                    exact dg_pend2 b0 c1 h3 h5 hc1
                  | c2 :: rest2 =>
                    by_cases hc2 : isCont c2 = true
                    · match rest2 with
                      | [] =>
                        rw [dg_pend3 b0 c1 c2 h4 h5 hc1 hc2]
                        exact dg_pend3 b0 c1 c2 h4 h5 hc1 hc2
                      | c3 :: rest3 =>
                        by_cases hc3 : isCont c3 = true
                        · rw [dg4_char _ _ _ _ _ h4 h5 hc1 hc2 hc3]
                          exact decodeGreedy_pending rest3
                        · rw [dg_notCont3 _ _ _ _ _ h4 h5 hc1 hc2 hc3]
                          exact decodeGreedy_pending (c1 :: c2 :: c3 :: rest3)
                    · rw [dg_notCont2 _ _ _ _ h3 h5 hc1 hc2]
                      exact decodeGreedy_pending (c1 :: c2 :: rest2)
                · rw [dg_notCont1 _ _ _ h2 h5 hc1]
                  exact decodeGreedy_pending (c1 :: rest1)
            · rw [dg_hiLead _ _ h5]
              exact decodeGreedy_pending rest
termination_by a => a.length

theorem utf8Encode_append (s t : List Char) :
    utf8Encode (s ++ t) = utf8Encode s ++ utf8Encode t := by
  simp [utf8Encode]

/-- Decoding the encoding of one character consumes exactly that character. -/
theorem decodeGreedy_encodeChar (c : Char) (bs : List Nat) :
    decodeGreedy (utf8EncodeChar c ++ bs) = (c :: (decodeGreedy bs).1, (decodeGreedy bs).2) := by
  have hvalid : c.toNat < 55296 ∨ (57344 ≤ c.toNat ∧ c.toNat < 1114112) := by
    have hv := c.valid
    simp [UInt32.isValidChar, Nat.isValidChar, Char.toNat] at hv
    rcases hv with h | h
    · left; exact h
    · right; exact h
  have hd1 := Nat.div_add_mod c.toNat 64
  have hm1 : c.toNat % 64 < 64 := Nat.mod_lt _ (by norm_num)
  by_cases hv1 : c.toNat < 128
  · simp only [utf8EncodeChar, if_pos hv1, List.cons_append, List.nil_append]
    rw [dg_ascii _ _ hv1, Char.ofNat_toNat]
    simp [consChar]
  · by_cases hv2 : c.toNat < 2048
    · simp only [utf8EncodeChar, if_neg hv1, if_pos hv2, List.cons_append, List.nil_append]
      rw [dg2_char _ _ _ (by omega) (by omega) (by simp [isCont]; omega)]
      have harith : (192 + c.toNat / 64 - 192) * 64 + (128 + c.toNat % 64 - 128) = c.toNat := by
        omega
      rw [harith, Char.ofNat_toNat]
      simp [consChar]
    · have hd2 := Nat.div_add_mod (c.toNat / 64) 64
      have hm2 : c.toNat / 64 % 64 < 64 := Nat.mod_lt _ (by norm_num)
      have hdd2 : c.toNat / 64 / 64 = c.toNat / 4096 := by
        rw [Nat.div_div_eq_div_mul]
      rw [hdd2] at hd2
      by_cases hv3 : c.toNat < 65536
      · simp only [utf8EncodeChar, if_neg hv1, if_neg hv2, if_pos hv3, List.cons_append,
          List.nil_append]
        rw [dg3_char _ _ _ _ (by omega) (by omega) (by simp [isCont]; omega)
          (by simp [isCont]; omega)]
        have harith : (224 + c.toNat / 4096 - 224) * 4096 + (128 + c.toNat / 64 % 64 - 128) * 64
            + (128 + c.toNat % 64 - 128) = c.toNat := by omega
        rw [harith, Char.ofNat_toNat]
        simp [consChar]
      · have hd3 := Nat.div_add_mod (c.toNat / 4096) 64
        have hm3 : c.toNat / 4096 % 64 < 64 := Nat.mod_lt _ (by norm_num)
        have hdd3 : c.toNat / 4096 / 64 = c.toNat / 262144 := by
          rw [Nat.div_div_eq_div_mul]
        rw [hdd3] at hd3
        simp only [utf8EncodeChar, if_neg hv1, if_neg hv2, if_neg hv3, List.cons_append,
          List.nil_append]
        rw [dg4_char _ _ _ _ _ (by omega) (by omega) (by simp [isCont]; omega)
          (by simp [isCont]; omega) (by simp [isCont]; omega)]
        have harith : (240 + c.toNat / 262144 - 240) * 262144
            + (128 + c.toNat / 4096 % 64 - 128) * 4096
            + (128 + c.toNat / 64 % 64 - 128) * 64 + (128 + c.toNat % 64 - 128) = c.toNat := by
          omega
        rw [harith, Char.ofNat_toNat]
        simp [consChar]

/-- Decoding an encoded string followed by more bytes yields the string and the
decode of the remainder. -/
theorem decodeGreedy_encode :
    ∀ (s : List Char) (bs : List Nat),
      decodeGreedy (utf8Encode s ++ bs) = (s ++ (decodeGreedy bs).1, (decodeGreedy bs).2)
  | [], bs => by simp [utf8Encode]
  | c :: s, bs => by
    have hstep : utf8Encode (c :: s) = utf8EncodeChar c ++ utf8Encode s := by
      simp [utf8Encode]
    rw [hstep, List.append_assoc, decodeGreedy_encodeChar, decodeGreedy_encode s bs]
    simp

/-- Decoding a complete encoded string recovers it exactly, with no pending bytes. -/
theorem decodeGreedy_encode_nil (s : List Char) : decodeGreedy (utf8Encode s) = (s, []) := by
  have h := decodeGreedy_encode s []
  simpa [decodeGreedy] using h

/-! ## Line layer: `buffer.split('\n')` with the last segment kept as buffer -/

/-- Prepend a non-newline character to a line split: it extends the first
complete line if there is one, otherwise the trailing buffer. -/
def consLine (c : Char) (r : List (List Char) × List Char) : List (List Char) × List Char :=
  match r.1 with
  | [] => ([], c :: r.2)
  | l :: ls => ((c :: l) :: ls, r.2)

/-- Split text into its complete lines and the trailing segment after the last
newline.  Models `s.split('\n')` followed by `lines.pop()`: the popped last
segment is the new buffer, the earlier segments are the complete lines. -/
def splitLines : List Char → List (List Char) × List Char
  | [] => ([], [])
  | c :: rest =>
    if c = '\n' then ([] :: (splitLines rest).1, (splitLines rest).2)
    else consLine c (splitLines rest)

example : splitLines ('a' :: '\n' :: ['b']) = ([['a']], ['b']) := by decide

example : splitLines ('a' :: '\n' :: ['\n']) = ([['a'], []], []) := by decide

/-- Text without a newline splits to no complete line and itself as buffer. -/
theorem splitLines_noNL : ∀ x : List Char, (∀ c ∈ x, c ≠ '\n') → splitLines x = ([], x)
  | [], _ => rfl
  | c :: rest, h => by
    have hc : c ≠ '\n' := h c (by simp)
    have ih := splitLines_noNL rest (fun d hd => h d (by simp [hd]))
    simp [splitLines, hc, ih, consLine]

/-- The buffer left by a split never contains a newline. -/
theorem splitLines_buffer_noNL : ∀ x : List Char, ∀ c ∈ (splitLines x).2, c ≠ '\n'
  | [] => by simp [splitLines]
  | c0 :: rest => by
    by_cases hc : c0 = '\n'
    · simp only [splitLines, if_pos hc]
      exact splitLines_buffer_noNL rest
    · simp only [splitLines, if_neg hc, consLine]
      match h : (splitLines rest).1 with
      | [] =>
        intro c hcm
        rcases List.mem_cons.mp hcm with h1 | h1
        · rw [h1]; exact hc
        · exact splitLines_buffer_noNL rest c h1
      | l :: ls =>
        exact splitLines_buffer_noNL rest

/-- Line splitting is compositional under the buffer threading done by the
decoder: the buffer of the first part is prepended to the second part. -/
theorem splitLines_append :
    ∀ a b : List Char,
      splitLines (a ++ b) =
        ((splitLines a).1 ++ (splitLines ((splitLines a).2 ++ b)).1,
         (splitLines ((splitLines a).2 ++ b)).2)
  | [], b => by simp [splitLines]
  | c :: rest, b => by
    have ih := splitLines_append rest b
    by_cases hc : c = '\n'
    · simp [splitLines, hc, ih]
    · have l1 : splitLines (c :: (rest ++ b)) = consLine c (splitLines (rest ++ b)) := by
        simp [splitLines, hc]
      have l2 : splitLines (c :: rest) = consLine c (splitLines rest) := by
        simp [splitLines, hc]
      rw [List.cons_append, l1, l2, ih]
      rcases h : (splitLines rest).1 with _ | ⟨l, ls⟩
      · have hx : splitLines (c :: ((splitLines rest).2 ++ b))
            = consLine c (splitLines ((splitLines rest).2 ++ b)) := by simp [splitLines, hc]
        rcases hX : (splitLines ((splitLines rest).2 ++ b)).1 with _ | ⟨m, ms⟩
        · simp [consLine, h, hX, hx]
        · simp [consLine, h, hX, hx]
      · simp [consLine, h]

/-- Splitting a single newline-free line followed by a newline terminator. -/
theorem splitLines_line (l : List Char) (rest : List Char) (h : ∀ c ∈ l, c ≠ '\n') :
    splitLines (l ++ '\n' :: rest) = (l :: (splitLines rest).1, (splitLines rest).2) := by
  induction l with
  | nil => simp [splitLines]
  | cons c l' ih =>
    have hc : c ≠ '\n' := h c (by simp)
    have ih' := ih (fun d hd => h d (by simp [hd]))
    simp [splitLines, hc, ih', consLine]

/-- The wire text of a list of lines, each terminated by a newline. -/
def linesWire (ls : List (List Char)) : List Char :=
  (ls.map (fun l => l ++ ['\n'])).flatten

/-- Splitting a newline-terminated wire recovers exactly its lines. -/
theorem splitLines_linesWire :
    ∀ ls : List (List Char), (∀ l ∈ ls, ∀ c ∈ l, c ≠ '\n') →
      splitLines (linesWire ls) = (ls, [])
  | [], _ => rfl
  | l :: ls, h => by
    have ih := splitLines_linesWire ls (fun m hm => h m (by simp [hm]))
    have hl := h l (by simp)
    simp only [linesWire, List.map_cons, List.flatten_cons, List.append_assoc,
      List.singleton_append]
    rw [splitLines_line l _ hl]
    simp [linesWire] at ih
    simp [ih]

/-! ## JSON layer: `JSON.parse` / `JSON.stringify` for the wire frames

`Json` models the values `JSON.parse` can return.  Numbers keep their literal
digits (sign, integer digits, fraction digits, exponent) rather than a float:
the decoder only ever consults a number's truthiness, and a JSON number is
falsy exactly when all its significant digits are `0` (double underflow on
astronomically large exponents is not modelled; no claim depends on it). -/

inductive Json where
  | null
  | bool (b : Bool)
  | num (neg : Bool) (ip fp : List Char) (eneg : Bool) (ed : List Char)
  | str (s : List Char)
  | arr (xs : List Json)
  | obj (ms : List (List Char × Json))

def lbrace : Char := Char.ofNat 123

def rbrace : Char := Char.ofNat 125

def isDigit (c : Char) : Bool := 48 ≤ c.toNat && c.toNat ≤ 57

def isWsChar (c : Char) : Bool := c = ' ' || c = '\t' || c = '\n' || c = '\r'

def skipWs : List Char → List Char
  | [] => []
  | c :: rest => if isWsChar c then skipWs rest else c :: rest

def hexVal (c : Char) : Option Nat :=
  let n := c.toNat
  if 48 ≤ n && n ≤ 57 then some (n - 48)
  else if 97 ≤ n && n ≤ 102 then some (n - 87)
  else if 65 ≤ n && n ≤ 70 then some (n - 55)
  else none

def unescapeChar (e : Char) : Option Char :=
  if e = '"' then some '"'
  else if e = '\\' then some '\\'
  else if e = '/' then some '/'
  else if e = 'b' then some (Char.ofNat 8)
  else if e = 'f' then some (Char.ofNat 12)
  else if e = 'n' then some '\n'
  else if e = 'r' then some '\r'
  else if e = 't' then some '\t'
  else none

/-- Parse a JSON string body after the opening quote: the decoded characters
and the remainder after the closing quote. -/
def parseStrBody : List Char → Option (List Char × List Char)
  | [] => none
  | c :: rest =>
    if c = '"' then some ([], rest)
    else if c = '\\' then
      match rest with
      | [] => none
      | e :: rest2 =>
        if e = 'u' then
          match rest2 with
          | h1 :: h2 :: h3 :: h4 :: rest6 =>
            match hexVal h1, hexVal h2, hexVal h3, hexVal h4 with
            | some v1, some v2, some v3, some v4 =>
              match parseStrBody rest6 with
              | some r => some (Char.ofNat (((v1 * 16 + v2) * 16 + v3) * 16 + v4) :: r.1, r.2)
              | none => none
            | _, _, _, _ => none
          | _ => none
        else
          match unescapeChar e with
          | some u =>
            match parseStrBody rest2 with
            | some r => some (u :: r.1, r.2)
            | none => none
          | none => none
    else if c.toNat < 32 then none
    else
      match parseStrBody rest with
      | some r => some (c :: r.1, r.2)
      | none => none

def takeDigits : List Char → List Char × List Char
  | [] => ([], [])
  | c :: rest =>
    if isDigit c then ((c :: (takeDigits rest).1), (takeDigits rest).2)
    else ([], c :: rest)

/-- Parse the exponent tail of a JSON number, after the `e`/`E` marker. -/
def parseExpTail (neg : Bool) (ip fp : List Char) (r : List Char) : Option (Json × List Char) :=
  let q := match r with
    | '+' :: r1 => (false, r1)
    | '-' :: r1 => (true, r1)
    | _ => (false, r)
  match takeDigits q.2 with
  | ([], _) => none
  | (ds, r2) => some (.num neg ip fp q.1 ds, r2)

/-- Parse a JSON number literal per the RFC 8259 grammar. -/
def parseNum (l : List Char) : Option (Json × List Char) :=
  let p := match l with
    | '-' :: r => (true, r)
    | _ => (false, l)
  match p.2 with
  | [] => none
  | c :: r =>
    if c = '0' then
      let fr := match r with
        | '.' :: r2 =>
          match takeDigits r2 with
          | ([], _) => none
          | (ds, r3) => some (ds, r3)
        | _ => some ([], r)
      match fr with
      | none => none
      | some (fp, r4) =>
        match r4 with
        | 'e' :: r5 => parseExpTail p.1 ['0'] fp r5
        | 'E' :: r5 => parseExpTail p.1 ['0'] fp r5
        | _ => some (.num p.1 ['0'] fp false [], r4)
    else if isDigit c then
      match takeDigits (c :: r) with
      | (ip, r2) =>
        let fr := match r2 with
          | '.' :: r3 =>
            match takeDigits r3 with
            | ([], _) => none
            | (ds, r4) => some (ds, r4)
          | _ => some ([], r2)
        match fr with
        | none => none
        | some (fp, r5) =>
          match r5 with
          | 'e' :: r6 => parseExpTail p.1 ip fp r6
          | 'E' :: r6 => parseExpTail p.1 ip fp r6
          | _ => some (.num p.1 ip fp false [], r5)
    else none

/-! The JSON value grammar, fuel-indexed (the fuel only bounds recursion; the
entry point supplies more fuel than any input can consume, so the model agrees
with `JSON.parse` on every input). -/

mutual

def parseVal : Nat → List Char → Option (Json × List Char)
  | 0, _ => none
  | fuel + 1, l =>
    match skipWs l with
    | [] => none
    | c :: r =>
      if c = 'n' then
        match r with
        | 'u' :: 'l' :: 'l' :: r2 => some (.null, r2)
        | _ => none
      else if c = 't' then
        match r with
        | 'r' :: 'u' :: 'e' :: r2 => some (.bool true, r2)
        | _ => none
      else if c = 'f' then
        match r with
        | 'a' :: 'l' :: 's' :: 'e' :: r2 => some (.bool false, r2)
        | _ => none
      else if c = '"' then
        match parseStrBody r with
        | some p => some (.str p.1, p.2)
        | none => none
      else if c = '[' then
        match skipWs r with
        | [] => none
        | d :: r2 =>
          if d = ']' then some (.arr [], r2)
          else
            match parseArrElems fuel (d :: r2) with
            | some p => some (.arr p.1, p.2)
            | none => none
      else if c = lbrace then
        match skipWs r with
        | [] => none
        | d :: r2 =>
          if d = rbrace then some (.obj [], r2)
          else
            match parseObjFields fuel (d :: r2) with
            | some p => some (.obj p.1, p.2)
            | none => none
      else if c = '-' || isDigit c then parseNum (c :: r)
      else none

def parseArrElems : Nat → List Char → Option (List Json × List Char)
  | 0, _ => none
  | fuel + 1, l =>
    match parseVal fuel l with
    | none => none
    | some p =>
      match skipWs p.2 with
      | [] => none
      | d :: r2 =>
        if d = ',' then
          match parseArrElems fuel r2 with
          | some q => some (p.1 :: q.1, q.2)
          | none => none
        else if d = ']' then some ([p.1], r2)
        else none

def parseObjFields : Nat → List Char → Option (List (List Char × Json) × List Char)
  | 0, _ => none
  | fuel + 1, l =>
    match skipWs l with
    | '"' :: r =>
      match parseStrBody r with
      | some k =>
        match skipWs k.2 with
        | ':' :: r2 =>
          match parseVal fuel r2 with
          | some v =>
            match skipWs v.2 with
            | [] => none
            | d :: r4 =>
              if d = ',' then
                match parseObjFields fuel r4 with
                | some q => some ((k.1, v.1) :: q.1, q.2)
                | none => none
              else if d = rbrace then some ([(k.1, v.1)], r4)
              else none
          | none => none
        | _ => none
      | none => none
    | _ => none

end

/-- `JSON.parse`: parse a complete document, requiring full consumption.  The
fuel `2 * length + 2` dominates the recursion depth of any input (every two
fuel units consume at least one character), so no parseable document is ever
refused for lack of fuel. -/
def jsonParse (l : List Char) : Option Json :=
  match parseVal (2 * l.length + 2) l with
  | some p => if (skipWs p.2).isEmpty then some p.1 else none
  | none => none

/-- Property access `data.k` on a parsed JSON value: `some` on an object with
field `k` (last occurrence wins, as in `JSON.parse`), `none` (undefined)
otherwise. -/
def getField (j : Json) (k : List Char) : Option Json :=
  match j with
  | .obj ms =>
    match (ms.reverse.find? (fun m => m.1 = k)) with
    | some m => some m.2
    | none => none
  | _ => none

/-- Are all given digits `0`? (Such a JSON number denotes the value 0.) -/
def allZero (ds : List Char) : Bool := ds.all (fun c => c = '0')

/-- JavaScript truthiness of a field that may be absent (`undefined`). -/
def truthy : Option Json → Bool
  | none => false
  | some .null => false
  | some (.bool b) => b
  | some (.num _ ip fp _ _) => !allZero (ip ++ fp)
  | some (.str s) => !s.isEmpty
  | some (.arr _) => true
  | some (.obj _) => true

/-- The characters appended by `fullText += data.content`.  The wire protocol
types `content` as a string, so only `.str` is ever exercised; the coercions of
the remaining JSON values are modelled loosely (no claim depends on them). -/
def jsToAppend : Json → List Char
  | .str s => s
  | .bool true => ('t' :: 'r' :: 'u' :: ['e'])
  | .bool false => ('f' :: 'a' :: 'l' :: 's' :: ['e'])
  | .null => ('n' :: 'u' :: 'l' :: ['l'])
  | .num _ ip fp _ ed => ip ++ fp ++ ed
  | .arr _ => []
  | .obj _ => []

/-! ## `JSON.stringify` of the frame object literals in `createStreamResponse` -/

/-- Lower-case hex digit, as emitted by `JSON.stringify` in escapes. -/
def hexDigit (n : Nat) : Char := Char.ofNat (if n < 10 then n + 48 else n + 87)

/-- One character as escaped by `JSON.stringify` inside a string literal. -/
def escapeChar (c : Char) : List Char :=
  if c = '"' then ('\\' :: ['"'])
  else if c = '\\' then ('\\' :: ['\\'])
  else if c.toNat = 8 then ('\\' :: ['b'])
  else if c.toNat = 9 then ('\\' :: ['t'])
  else if c.toNat = 10 then ('\\' :: ['n'])
  else if c.toNat = 12 then ('\\' :: ['f'])
  else if c.toNat = 13 then ('\\' :: ['r'])
  else if c.toNat < 32 then
    ('\\' :: 'u' :: '0' :: '0' :: hexDigit (c.toNat / 16) :: [hexDigit (c.toNat % 16)])
  else [c]

def jsonEscape (s : List Char) : List Char := (s.map escapeChar).flatten

/-- A JSON string literal: quote, escaped body, quote. -/
def jsonStrLit (s : List Char) : List Char := '"' :: (jsonEscape s ++ ['"'])

def contentKey : List Char := ('c' :: 'o' :: 'n' :: 't' :: 'e' :: 'n' :: ['t'])

def doneKey : List Char := ('d' :: 'o' :: 'n' :: ['e'])

def errorKey : List Char := ('e' :: 'r' :: 'r' :: 'o' :: ['r'])

/-- `JSON.stringify(obj)` for `obj = (content: d, done: false)`. -/
def contentFrameJson (d : List Char) : List Char :=
  lbrace :: (jsonStrLit contentKey ++ ':' :: jsonStrLit d ++
    ',' :: jsonStrLit doneKey ++ ':' :: 'f' :: 'a' :: 'l' :: 's' :: 'e' :: [rbrace])

/-- `JSON.stringify(obj)` for `obj = (content: empty, done: true)`. -/
def doneFrameJson : List Char :=
  lbrace :: (jsonStrLit contentKey ++ ':' :: jsonStrLit [] ++
    ',' :: jsonStrLit doneKey ++ ':' :: 't' :: 'r' :: 'u' :: 'e' :: [rbrace])

/-- `JSON.stringify(obj)` for `obj = (error: m, done: true)`. -/
def errorFrameJson (m : List Char) : List Char :=
  lbrace :: (jsonStrLit errorKey ++ ':' :: jsonStrLit m ++
    ',' :: jsonStrLit doneKey ++ ':' :: 't' :: 'r' :: 'u' :: 'e' :: [rbrace])

/-- The parsed form of a content frame. -/
def contentObj (d : List Char) : Json := .obj [(contentKey, .str d), (doneKey, .bool false)]

/-- The parsed form of the terminal done frame. -/
def doneObj : Json := .obj [(contentKey, .str []), (doneKey, .bool true)]

/-- The parsed form of a terminal error frame. -/
def errorObj (m : List Char) : Json := .obj [(errorKey, .str m), (doneKey, .bool true)]

theorem hexVal_hexDigit (n : Nat) (h : n < 16) : hexVal (hexDigit n) = some n := by
  interval_cases n <;> decide

/-- Parsing one stringified-escaped character undoes the escape. -/
theorem parseStrBody_escapeChar (c : Char) (rest : List Char) :
    parseStrBody (escapeChar c ++ rest) =
      match parseStrBody rest with
      | some r => some (c :: r.1, r.2)
      | none => none := by
  by_cases h1 : c = '"'
  · subst h1
    rw [show escapeChar '"' ++ rest = '\\' :: '"' :: rest by simp [escapeChar]]
    rw [parseStrBody.eq_def]
    simp [unescapeChar]
  · by_cases h2 : c = '\\'
    · subst h2
      rw [show escapeChar '\\' ++ rest = '\\' :: '\\' :: rest by simp [escapeChar]]
      rw [parseStrBody.eq_def]
      simp [unescapeChar]
    · by_cases h3 : c.toNat = 8
      · have hc : c = Char.ofNat 8 := by
          have := Char.ofNat_toNat c
          rw [h3] at this
          exact this.symm
        rw [show escapeChar c ++ rest = '\\' :: 'b' :: rest by
          simp [escapeChar, h1, h2, h3]]
        rw [parseStrBody.eq_def]
        simp [unescapeChar, hc]
      · by_cases h4 : c.toNat = 9
        · have hc : c = '\t' := by
            have := Char.ofNat_toNat c
            rw [h4] at this
            exact this.symm
          rw [show escapeChar c ++ rest = '\\' :: 't' :: rest by
            simp [escapeChar, h1, h2, h3, h4]]
          rw [parseStrBody.eq_def]
          simp [unescapeChar, hc]
        · by_cases h5 : c.toNat = 10
          · have hc : c = '\n' := by
              have := Char.ofNat_toNat c
              rw [h5] at this
              exact this.symm
            rw [show escapeChar c ++ rest = '\\' :: 'n' :: rest by
              simp [escapeChar, h1, h2, h3, h4, h5]]
            rw [parseStrBody.eq_def]
            simp [unescapeChar, hc]
          · by_cases h6 : c.toNat = 12
            · have hc : c = Char.ofNat 12 := by
                have := Char.ofNat_toNat c
                rw [h6] at this
                exact this.symm
              rw [show escapeChar c ++ rest = '\\' :: 'f' :: rest by
                simp [escapeChar, h1, h2, h3, h4, h5, h6]]
              rw [parseStrBody.eq_def]
              simp [unescapeChar, hc]
            · by_cases h7 : c.toNat = 13
              · have hc : c = '\r' := by
                  have := Char.ofNat_toNat c
                  rw [h7] at this
                  exact this.symm
                rw [show escapeChar c ++ rest = '\\' :: 'r' :: rest by
                  simp [escapeChar, h1, h2, h3, h4, h5, h6, h7]]
                rw [parseStrBody.eq_def]
                simp [unescapeChar, hc]
              · by_cases h8 : c.toNat < 32
                · have hdiv : c.toNat / 16 < 16 := by omega
                  have hmod : c.toNat % 16 < 16 := Nat.mod_lt _ (by norm_num)
                  have harith : ((0 * 16 + 0) * 16 + c.toNat / 16) * 16 + c.toNat % 16
                      = c.toNat := by omega
                  rw [show escapeChar c ++ rest
                      = '\\' :: 'u' :: '0' :: '0' :: hexDigit (c.toNat / 16)
                        :: hexDigit (c.toNat % 16) :: rest by
                    simp [escapeChar, h1, h2, h3, h4, h5, h6, h7, h8]]
                  rw [parseStrBody.eq_def]
                  have h16 : c.toNat / 16 * 16 + c.toNat % 16 = c.toNat := by omega
                  simp [hexVal_hexDigit _ hdiv, hexVal_hexDigit _ hmod,
                    show hexVal '0' = some 0 by decide, harith, h16, Char.ofNat_toNat]
                · rw [show escapeChar c ++ rest = c :: rest by
                    simp [escapeChar, h1, h2, h3, h4, h5, h6, h7, h8]]
                  rw [parseStrBody.eq_def]
                  simp [h1, h2, h8]

/-- Parsing an escaped string body recovers the original characters. -/
theorem parseStrBody_escape :
    ∀ (s rest : List Char), parseStrBody (jsonEscape s ++ '"' :: rest) = some (s, rest)
  | [], rest => by
    rw [show jsonEscape [] = [] from rfl, List.nil_append, parseStrBody.eq_def]
    simp
  | c :: s, rest => by
    rw [show jsonEscape (c :: s) = escapeChar c ++ jsonEscape s from by
      simp [jsonEscape], List.append_assoc, parseStrBody_escapeChar,
      parseStrBody_escape s rest]

/-- `parseVal` on a stringified string literal. -/
theorem parseVal_strLit (f : Nat) (s rest : List Char) :
    parseVal (f + 1) ('"' :: (jsonEscape s ++ '"' :: rest)) = some (.str s, rest) := by
  rw [parseVal.eq_def]
  simp [skipWs, show isWsChar '"' = false from by decide, parseStrBody_escape]

/-- `parseVal` on the literal `false`. -/
theorem parseVal_false (f : Nat) (rest : List Char) :
    parseVal (f + 1) ('f' :: 'a' :: 'l' :: 's' :: 'e' :: rest) = some (.bool false, rest) := by
  rw [parseVal.eq_def]
  simp [skipWs, show isWsChar 'f' = false from by decide]

/-- `parseVal` on the literal `true`. -/
theorem parseVal_true (f : Nat) (rest : List Char) :
    parseVal (f + 1) ('t' :: 'r' :: 'u' :: 'e' :: rest) = some (.bool true, rest) := by
  rw [parseVal.eq_def]
  simp [skipWs, show isWsChar 't' = false from by decide]

/-- `parseVal` entering an object body. -/
theorem parseVal_lbrace (f : Nat) (r : List Char) :
    parseVal (f + 1) (lbrace :: r) =
      match skipWs r with
      | [] => none
      | d :: r2 =>
        if d = rbrace then some (.obj [], r2)
        else
          match parseObjFields f (d :: r2) with
          | some p => some (.obj p.1, p.2)
          | none => none := by
  rw [parseVal.eq_def]
  simp [skipWs, show isWsChar lbrace = false from by decide,
    show ¬ lbrace = 'n' from by decide, show ¬ lbrace = 't' from by decide,
    show ¬ lbrace = 'f' from by decide, show ¬ lbrace = '"' from by decide,
    show ¬ lbrace = '[' from by decide, show ¬ lbrace = '-' from by decide,
    show isDigit lbrace = false from by decide]

/-- One object field whose key is a stringified literal. -/
theorem parseObjFields_strKey (f : Nat) (k r : List Char) :
    parseObjFields (f + 1) ('"' :: (jsonEscape k ++ '"' :: ':' :: r)) =
      match parseVal f r with
      | some v =>
        match skipWs v.2 with
        | [] => none
        | d :: r4 =>
          if d = ',' then
            match parseObjFields f r4 with
            | some q => some ((k, v.1) :: q.1, q.2)
            | none => none
          else if d = rbrace then some ([(k, v.1)], r4)
          else none
      | none => none := by
  rw [parseObjFields.eq_def]
  simp [skipWs, show isWsChar '"' = false from by decide, parseStrBody_escape,
    show isWsChar ':' = false from by decide]

theorem skipWs_notWs (c : Char) (h : isWsChar c = false) (z : List Char) :
    skipWs (c :: z) = c :: z := by
  simp [skipWs, h]

/-- Parsing the stringified content frame recovers its object. -/
theorem parseVal_contentFrame (f : Nat) (d rest : List Char) :
    parseVal (f + 4) (contentFrameJson d ++ rest) = some (contentObj d, rest) := by
  have hshape : contentFrameJson d ++ rest
      = lbrace :: ('"' :: (jsonEscape contentKey ++ '"' :: ':' ::
          ('"' :: (jsonEscape d ++ '"' :: ',' ::
            ('"' :: (jsonEscape doneKey ++ '"' :: ':' ::
              ('f' :: 'a' :: 'l' :: 's' :: 'e' :: rbrace :: rest))))))) := by
    simp [contentFrameJson, jsonStrLit]
  rw [hshape, show f + 4 = (f + 3) + 1 from rfl, parseVal_lbrace,
    skipWs_notWs '"' (by decide)]
  simp only []
  rw [if_neg (show ¬ '"' = rbrace from by decide),
    show ((f + 3) : Nat) = (f + 2) + 1 from rfl, parseObjFields_strKey,
    show ((f + 2) : Nat) = (f + 1) + 1 from rfl, parseVal_strLit]
  simp only []
  rw [skipWs_notWs ',' (by decide)]
  simp only []
  simp only [if_true]
  rw [parseObjFields_strKey, parseVal_false]
  simp only []
  rw [skipWs_notWs rbrace (by decide)]
  simp only []
  rw [if_neg (show ¬ rbrace = ',' from by decide)]
  simp [contentObj]

/-- Parsing the stringified done frame recovers its object. -/
theorem parseVal_doneFrame (f : Nat) (rest : List Char) :
    parseVal (f + 4) (doneFrameJson ++ rest) = some (doneObj, rest) := by
  have hshape : doneFrameJson ++ rest
      = lbrace :: ('"' :: (jsonEscape contentKey ++ '"' :: ':' ::
          ('"' :: (jsonEscape [] ++ '"' :: ',' ::
            ('"' :: (jsonEscape doneKey ++ '"' :: ':' ::
              ('t' :: 'r' :: 'u' :: 'e' :: rbrace :: rest))))))) := by
    simp [doneFrameJson, jsonStrLit]
  rw [hshape, show f + 4 = (f + 3) + 1 from rfl, parseVal_lbrace,
    skipWs_notWs '"' (by decide)]
  simp only []
  rw [if_neg (show ¬ '"' = rbrace from by decide),
    show ((f + 3) : Nat) = (f + 2) + 1 from rfl, parseObjFields_strKey,
    show ((f + 2) : Nat) = (f + 1) + 1 from rfl, parseVal_strLit]
  simp only []
  rw [skipWs_notWs ',' (by decide)]
  simp only []
  simp only [if_true]
  rw [parseObjFields_strKey, parseVal_true]
  simp only []
  rw [skipWs_notWs rbrace (by decide)]
  simp only []
  rw [if_neg (show ¬ rbrace = ',' from by decide)]
  simp [doneObj]

/-- Parsing the stringified error frame recovers its object. -/
theorem parseVal_errorFrame (f : Nat) (m rest : List Char) :
    parseVal (f + 4) (errorFrameJson m ++ rest) = some (errorObj m, rest) := by
  have hshape : errorFrameJson m ++ rest
      = lbrace :: ('"' :: (jsonEscape errorKey ++ '"' :: ':' ::
          ('"' :: (jsonEscape m ++ '"' :: ',' ::
            ('"' :: (jsonEscape doneKey ++ '"' :: ':' ::
              ('t' :: 'r' :: 'u' :: 'e' :: rbrace :: rest))))))) := by
    simp [errorFrameJson, jsonStrLit]
  rw [hshape, show f + 4 = (f + 3) + 1 from rfl, parseVal_lbrace,
    skipWs_notWs '"' (by decide)]
  simp only []
  rw [if_neg (show ¬ '"' = rbrace from by decide),
    show ((f + 3) : Nat) = (f + 2) + 1 from rfl, parseObjFields_strKey,
    show ((f + 2) : Nat) = (f + 1) + 1 from rfl, parseVal_strLit]
  simp only []
  rw [skipWs_notWs ',' (by decide)]
  simp only []
  simp only [if_true]
  rw [parseObjFields_strKey, parseVal_true]
  simp only []
  rw [skipWs_notWs rbrace (by decide)]
  simp only []
  rw [if_neg (show ¬ rbrace = ',' from by decide)]
  simp [errorObj]

theorem jsonParse_contentFrame (d : List Char) :
    jsonParse (contentFrameJson d) = some (contentObj d) := by
  have hlen : 1 ≤ (contentFrameJson d).length := by simp [contentFrameJson]
  have hfuel : 2 * (contentFrameJson d).length + 2
      = (2 * (contentFrameJson d).length - 2) + 4 := by omega
  have hp := parseVal_contentFrame (2 * (contentFrameJson d).length - 2) d []
  rw [List.append_nil] at hp
  simp only [jsonParse, hfuel, hp]
  simp [skipWs]

theorem jsonParse_doneFrame : jsonParse doneFrameJson = some doneObj := by
  have hlen : 1 ≤ doneFrameJson.length := by simp [doneFrameJson]
  have hfuel : 2 * doneFrameJson.length + 2 = (2 * doneFrameJson.length - 2) + 4 := by omega
  have hp := parseVal_doneFrame (2 * doneFrameJson.length - 2) []
  rw [List.append_nil] at hp
  simp only [jsonParse, hfuel, hp]
  simp [skipWs]

theorem jsonParse_errorFrame (m : List Char) :
    jsonParse (errorFrameJson m) = some (errorObj m) := by
  have hlen : 1 ≤ (errorFrameJson m).length := by simp [errorFrameJson]
  have hfuel : 2 * (errorFrameJson m).length + 2
      = (2 * (errorFrameJson m).length - 2) + 4 := by omega
  have hp := parseVal_errorFrame (2 * (errorFrameJson m).length - 2) m []
  rw [List.append_nil] at hp
  simp only [jsonParse, hfuel, hp]
  simp [skipWs]

theorem getField_contentObj_error (d : List Char) :
    getField (contentObj d) errorKey = none := rfl

theorem getField_contentObj_content (d : List Char) :
    getField (contentObj d) contentKey = some (.str d) := rfl

theorem getField_contentObj_done (d : List Char) :
    getField (contentObj d) doneKey = some (.bool false) := rfl

theorem getField_doneObj_error : getField doneObj errorKey = none := rfl

theorem getField_doneObj_content : getField doneObj contentKey = some (.str []) := rfl

theorem getField_doneObj_done : getField doneObj doneKey = some (.bool true) := rfl

theorem getField_errorObj_error (m : List Char) :
    getField (errorObj m) errorKey = some (.str m) := rfl

/-! ## The decoder: `StreamProcessor.processStream`

The source (`src/lib/streaming.ts`, lines 22-68) reads chunks in a loop,
decodes them statefully, splits the buffered text on `'\n'` keeping the last
segment as the new buffer, and handles each complete line that starts with
`"data: "` by parsing its JSON payload.  One behaviour of the source matters
throughout: the statement `throw new Error(data.error)` sits *inside* the
`try` block whose `catch` clause is the malformed-JSON skip (`continue`), so
the thrown error is swallowed by that very clause and the line is simply
skipped — the `onError` handler and the outer catch are unreachable from an
error frame.  The model reproduces this: an error-bearing frame is a no-op.
Reader failures and throwing callbacks are not modelled (no claim needs
them); with a non-failing transport the outer catch never runs, so the model
needs no error outcome. -/

inductive Event where
  | chunk (s : List Char)
  | complete (s : List Char)
  | success (s : List Char)
deriving DecidableEq

/-- The frame marker `"data: "`. -/
def dataHead : List Char := ('d' :: 'a' :: 't' :: 'a' :: ':' :: [' '])

/-- Result of processing lines: accumulated text, callback events in order,
and whether the loop returned (a done frame was dispatched). -/
structure LineRes where
  text : List Char
  events : List Event
  term : Bool
deriving DecidableEq

/-- One iteration of `for (const line of lines)` in `processStream`:
`line.startsWith('data: ')`, `JSON.parse(line.slice(6))`, the (self-swallowed)
`data.error` throw, the `data.content` accumulation with `onChunk`, and the
`data.done` completion with `onComplete` and return. -/
def processLine (acc line : List Char) : LineRes :=
  if line.take 6 = dataHead then
    match jsonParse (line.drop 6) with
    | none => ⟨acc, [], false⟩
    | some data =>
      if truthy (getField data errorKey) then ⟨acc, [], false⟩
      else
        let appended := match getField data contentKey with
          | some j => jsToAppend j
          | none => []
        let acc2 := if truthy (getField data contentKey) then acc ++ appended else acc
        let evs2 : List Event :=
          if truthy (getField data contentKey) then [.chunk appended] else []
        if truthy (getField data doneKey) then ⟨acc2, evs2 ++ [.complete acc2], true⟩
        else ⟨acc2, evs2, false⟩
  else ⟨acc, [], false⟩

/-- The line loop, stopping at the first line that returns. -/
def runLines (acc : List Char) : List (List Char) → LineRes
  | [] => ⟨acc, [], false⟩
  | l :: ls =>
    let r := processLine acc l
    if r.term then r
    else
      let q := runLines r.text ls
      ⟨q.text, r.events ++ q.events, q.term⟩

/-- The mutable instance state of a `StreamProcessor`: the platform decoder's
pending bytes and the line buffer.  Both are fields of the class instance and
are *not* reset by `processStream` itself. -/
structure PState where
  pending : List Nat
  buffer : List Char
deriving DecidableEq

/-- Result of a whole `processStream` call: the final instance state, the
returned `fullText`, the callback events, and whether a done frame ended the
read loop (`false` means the transport was exhausted). -/
structure RunRes where
  state : PState
  text : List Char
  events : List Event
  term : Bool
deriving DecidableEq

/-- The read loop of `processStream`, one chunk per iteration: decode with
`stream: true`, append to the buffer, split off complete lines, process them,
and on exhaustion invoke `onComplete` with the accumulated text. -/
def runChunks (st : PState) (acc : List Char) : List (List Nat) → RunRes
  | [] => ⟨st, acc, [.complete acc], false⟩
  | c :: cs =>
    let dec := decodeGreedy (st.pending ++ c)
    let sp := splitLines (st.buffer ++ dec.1)
    let r := runLines acc sp.1
    let st2 : PState := ⟨dec.2, sp.2⟩
    if r.term then ⟨st2, r.text, r.events, true⟩
    else
      let q := runChunks st2 r.text cs
      ⟨q.state, q.text, r.events ++ q.events, q.term⟩

/-- `processStream` on a fresh `StreamProcessor` (`new TextDecoder()`, empty
buffer), fed the given byte chunks followed by end-of-data: the callback
events in order and the returned accumulated text. -/
def processStream (chunks : List (List Nat)) : List Event × List Char :=
  ((runChunks ⟨[], []⟩ [] chunks).events, (runChunks ⟨[], []⟩ [] chunks).text)

/-! ## The encoder: `createStreamResponse`

The generator argument is modelled by the response units it yields before it
terminates (`units`) together with how it terminates: `failure = none` for
normal exhaustion and `failure = some m` for a raise whose extracted message
is `m` (the source maps a non-`Error` throw to the fixed message
`'Streaming failed'`; the model takes the extracted message directly). -/

structure GPart where
  text : Option (List Char)

structure GContent where
  parts : Option (List GPart)

structure GCandidate where
  content : Option GContent

structure GChunk where
  candidates : Option (List GCandidate)

/-- `chunk.candidates?.[0]?.content?.parts?.[0]?.text`: `none` when any link
of the optional chain is absent. -/
def extractText (u : GChunk) : Option (List Char) :=
  match u.candidates with
  | none => none
  | some cs =>
    match cs.head? with
    | none => none
    | some cand =>
      match cand.content with
      | none => none
      | some ct =>
        match ct.parts with
        | none => none
        | some ps =>
          match ps.head? with
          | none => none
          | some p => p.text

/-- `if (text) …`: the delta actually emitted for a unit — present iff the
extracted text exists and is non-empty (JS truthiness of a string). -/
def deltaOf (u : GChunk) : Option (List Char) :=
  match extractText u with
  | some t => if t.isEmpty then none else some t
  | none => none

/-- The deltas of a run, in order. -/
def deltas (units : List GChunk) : List (List Char) := units.filterMap deltaOf

/-- One wire frame: `data: ` + json + `\n\n`. -/
def frameLine (j : List Char) : List Char := dataHead ++ j ++ '\n' :: ['\n']

/-- The encoded bytes enqueued for one content delta. -/
def contentBlock (d : List Char) : List Nat := utf8Encode (frameLine (contentFrameJson d))

/-- The encoded bytes of the terminal done frame. -/
def doneBlock : List Nat := utf8Encode (frameLine doneFrameJson)

/-- The encoded bytes of a terminal error frame. -/
def errorBlock (m : List Char) : List Nat := utf8Encode (frameLine (errorFrameJson m))

/-- The terminal frame written on each exit path of `createStreamResponse`. -/
def terminalBlock : Option (List Char) → List Nat
  | none => doneBlock
  | some m => errorBlock m

/-- The content-frame byte blocks enqueued for the units, one per unit with a
truthy extracted delta, in order. -/
def encodeFrames (units : List GChunk) : List (List Nat) :=
  units.filterMap (fun u => (deltaOf u).map contentBlock)

/-- An observable action of the encoder on its transport controller. -/
inductive WAction where
  | enqueue (bytes : List Nat)
  | close
deriving DecidableEq

/-- The full action trace of `createStreamResponse`: one enqueue per truthy
delta, then the terminal frame, then `controller.close()`. -/
def streamWrites (units : List GChunk) (failure : Option (List Char)) : List WAction :=
  (encodeFrames units).map .enqueue ++ [.enqueue (terminalBlock failure), .close]

/-- The byte stream the transport carries: the concatenation of everything
enqueued. -/
def wireBytes (units : List GChunk) (failure : Option (List Char)) : List Nat :=
  (encodeFrames units).flatten ++ terminalBlock failure

/-! ## The consumer decode loop: `useGenAI.chatStream`

Modelled from `src/hooks/useGenAI.ts` lines 106-151.  It differs from
`StreamProcessor.processStream` in precisely these ways: the decoder is
called without `stream: true` (an incomplete trailing UTF-8 sequence flushes
to U+FFFD), each chunk is split on `'\n'` with *no* buffer carried between
chunks and the trailing segment processed as if complete, the done frame
additionally invokes `onSuccess` after `onStreamComplete`, and transport
exhaustion returns without invoking any completion callback.  The
`data.error` throw is swallowed by its own catch clause exactly as in the
stream processor.  The `setResponse`/`setError` state updates are UI state,
not modelled. -/

/-- `decoder.decode(value)` with no stream option: a trailing incomplete
sequence becomes a replacement character instead of staying pending. -/
def flushDecode (bytes : List Nat) : List Char :=
  if (decodeGreedy bytes).2.isEmpty then (decodeGreedy bytes).1
  else (decodeGreedy bytes).1 ++ [repl]

/-- `chunk.split('\n')` with every segment processed, the trailing one
included. -/
def chatLines (txt : List Char) : List (List Char) :=
  (splitLines txt).1 ++ [(splitLines txt).2]

/-- One iteration of the line loop in `chatStream`; identical to
`processLine` except that a done frame fires `onStreamComplete` and then
`onSuccess`. -/
def chatProcessLine (acc line : List Char) : LineRes :=
  if line.take 6 = dataHead then
    match jsonParse (line.drop 6) with
    | none => ⟨acc, [], false⟩
    | some data =>
      if truthy (getField data errorKey) then ⟨acc, [], false⟩
      else
        let appended := match getField data contentKey with
          | some j => jsToAppend j
          | none => []
        let acc2 := if truthy (getField data contentKey) then acc ++ appended else acc
        let evs2 : List Event :=
          if truthy (getField data contentKey) then [.chunk appended] else []
        if truthy (getField data doneKey) then
          ⟨acc2, evs2 ++ [.complete acc2, .success acc2], true⟩
        else ⟨acc2, evs2, false⟩
  else ⟨acc, [], false⟩

/-- The line loop of `chatStream`. -/
def chatRunLines (acc : List Char) : List (List Char) → LineRes
  | [] => ⟨acc, [], false⟩
  | l :: ls =>
    let r := chatProcessLine acc l
    if r.term then r
    else
      let q := chatRunLines r.text ls
      ⟨q.text, r.events ++ q.events, q.term⟩

/-- The read loop of `chatStream`: per chunk, flush-decode and process every
split segment; on exhaustion return the accumulator with no completion
event. -/
def chatRun (acc : List Char) : List (List Nat) → List Char × List Event
  | [] => (acc, [])
  | c :: cs =>
    let r := chatRunLines acc (chatLines (flushDecode c))
    if r.term then (r.text, r.events)
    else
      let q := chatRun r.text cs
      (q.1, r.events ++ q.2)

/-- `chatStream` fed the given byte chunks: events and final accumulated
response. -/
def chatStream (chunks : List (List Nat)) : List Event × List Char :=
  ((chatRun [] chunks).2, (chatRun [] chunks).1)

/-- A generator unit carrying exactly one text delta. -/
def mkUnit (t : List Char) : GChunk := ⟨some [⟨some ⟨some [⟨some t⟩]⟩⟩]⟩

example : deltas [mkUnit ('h' :: ['i'])] = [('h' :: ['i'])] := by decide

example :
    processStream [wireBytes [mkUnit ('h' :: ['i'])] none]
      = ([.chunk ('h' :: ['i']), .complete ('h' :: ['i'])], ('h' :: ['i'])) := by decide

/-! ## Chunk invariance of the decoder -/

/-- A byte list that the streaming decoder would keep entirely pending. -/
def IsPending (p : List Nat) : Prop := decodeGreedy p = ([], p)

/-- A character list without newlines (a valid line buffer). -/
def NoNL (b : List Char) : Prop := ∀ c ∈ b, c ≠ '\n'

/-- The line loop distributes over list append, short-circuiting on a
terminating line. -/
theorem runLines_append :
    ∀ (l1 l2 : List (List Char)) (acc : List Char),
      runLines acc (l1 ++ l2) =
        if (runLines acc l1).term then runLines acc l1
        else
          ⟨(runLines (runLines acc l1).text l2).text,
           (runLines acc l1).events ++ (runLines (runLines acc l1).text l2).events,
           (runLines (runLines acc l1).text l2).term⟩
  | [], l2, acc => by simp [runLines]
  | l :: l1, l2, acc => by
    by_cases hterm : (processLine acc l).term
    · simp [runLines, hterm]
    · have ih := runLines_append l1 l2 (processLine acc l).text
      by_cases hterm2 : (runLines (processLine acc l).text l1).term
      · simp [runLines, hterm, ih, hterm2]
      · simp [runLines, hterm, ih, hterm2]

/-- Processing the whole byte stream in one go from a given decoder state:
the reference behaviour that any chunking of the stream must match. -/
def oneShotFrom (p : List Nat) (b acc : List Char) (bytes : List Nat) :
    List Char × List Event × Bool :=
  let dec := decodeGreedy (p ++ bytes)
  let sp := splitLines (b ++ dec.1)
  let r := runLines acc sp.1
  if r.term then (r.text, r.events, true) else (r.text, r.events ++ [.complete r.text], false)

/-- The decoder's read loop is invariant under chunking: from any reachable
state, processing any list of chunks observably equals processing their
concatenation in one piece. -/
theorem runChunks_oneShot :
    ∀ (chunks : List (List Nat)) (p : List Nat) (b acc : List Char),
      IsPending p → NoNL b →
      ((runChunks ⟨p, b⟩ acc chunks).text, (runChunks ⟨p, b⟩ acc chunks).events,
        (runChunks ⟨p, b⟩ acc chunks).term) = oneShotFrom p b acc chunks.flatten
  | [], p, b, acc, hp, hb => by
    have hp2 : decodeGreedy p = ([], p) := hp
    have hsp := splitLines_noNL b hb
    simp [runChunks, oneShotFrom, hp2, hsp, runLines]
  | c :: cs, p, b, acc, hp, hb => by
    have hdec := decodeGreedy_append (p ++ c) cs.flatten
    have hsp := splitLines_append (b ++ (decodeGreedy (p ++ c)).1)
      ((decodeGreedy ((decodeGreedy (p ++ c)).2 ++ cs.flatten)).1)
    have hrl := runLines_append (splitLines (b ++ (decodeGreedy (p ++ c)).1)).1
      ((splitLines ((splitLines (b ++ (decodeGreedy (p ++ c)).1)).2 ++
        (decodeGreedy ((decodeGreedy (p ++ c)).2 ++ cs.flatten)).1)).1) acc
    have hpend : IsPending (decodeGreedy (p ++ c)).2 := decodeGreedy_pending (p ++ c)
    have hbuf : NoNL (splitLines (b ++ (decodeGreedy (p ++ c)).1)).2 :=
      splitLines_buffer_noNL (b ++ (decodeGreedy (p ++ c)).1)
    have ih := runChunks_oneShot cs (decodeGreedy (p ++ c)).2
      (splitLines (b ++ (decodeGreedy (p ++ c)).1)).2
      (runLines acc (splitLines (b ++ (decodeGreedy (p ++ c)).1)).1).text hpend hbuf
    simp only [List.flatten_cons, oneShotFrom]
    rw [show p ++ (c ++ cs.flatten) = (p ++ c) ++ cs.flatten from by simp, hdec]
    rw [show b ++ ((decodeGreedy (p ++ c)).1 ++
        (decodeGreedy ((decodeGreedy (p ++ c)).2 ++ cs.flatten)).1)
      = (b ++ (decodeGreedy (p ++ c)).1) ++
        (decodeGreedy ((decodeGreedy (p ++ c)).2 ++ cs.flatten)).1 from by simp, hsp]
    rw [hrl]
    by_cases hterm : (runLines acc (splitLines (b ++ (decodeGreedy (p ++ c)).1)).1).term
    · simp [runChunks, hterm]
    · rw [oneShotFrom] at ih
      by_cases hterm2 :
          (runLines (runLines acc (splitLines (b ++ (decodeGreedy (p ++ c)).1)).1).text
            (splitLines ((splitLines (b ++ (decodeGreedy (p ++ c)).1)).2 ++
              (decodeGreedy ((decodeGreedy (p ++ c)).2 ++ cs.flatten)).1)).1).term
      · simp only [runChunks, hterm, hterm2, if_false, if_true]
        simp only [hterm2] at ih
        simp [runChunks, hterm, Prod.ext_iff] at ih ⊢
        obtain ⟨h1, h2, h3⟩ := ih
        simp [h1, h2, h3, hterm2]
      · simp only [runChunks, hterm, hterm2, if_false]
        simp only [hterm2] at ih
        simp [runChunks, hterm, Prod.ext_iff] at ih ⊢
        obtain ⟨h1, h2, h3⟩ := ih
        simp [h1, h2, h3, hterm2]

/-- `processStream` only depends on the concatenation of its chunks. -/
theorem processStream_flatten (chunks : List (List Nat)) :
    processStream chunks = processStream [chunks.flatten] := by
  have hpe : IsPending [] := by simp [IsPending, decodeGreedy]
  have hbe : NoNL ([] : List Char) := by simp [NoNL]
  have h1 := runChunks_oneShot chunks [] [] [] hpe hbe
  have h2 := runChunks_oneShot [chunks.flatten] [] [] [] hpe hbe
  rw [show ([chunks.flatten] : List (List Nat)).flatten = chunks.flatten from by simp] at h2
  have h3 := h1.trans h2.symm
  simp only [Prod.mk.injEq] at h3
  simp [processStream, h3.1, h3.2.1]

theorem take_dataHead (x : List Char) : (dataHead ++ x).take 6 = dataHead := by
  rw [show (6 : Nat) = dataHead.length from rfl, List.take_left]

theorem drop_dataHead (x : List Char) : (dataHead ++ x).drop 6 = x := by
  rw [show (6 : Nat) = dataHead.length from rfl, List.drop_left]

/-- A content frame line: appends the delta and fires `onChunk`. -/
theorem processLine_content (acc d : List Char) (hne : d ≠ []) :
    processLine acc (dataHead ++ contentFrameJson d) = ⟨acc ++ d, [.chunk d], false⟩ := by
  have hne2 : d.isEmpty = false := by cases d <;> simp_all
  simp [processLine, take_dataHead, drop_dataHead, jsonParse_contentFrame,
    getField_contentObj_error, getField_contentObj_content, getField_contentObj_done,
    truthy, jsToAppend, hne2]

/-- The done frame line: fires `onComplete` and returns. -/
theorem processLine_done (acc : List Char) :
    processLine acc (dataHead ++ doneFrameJson) = ⟨acc, [.complete acc], true⟩ := by
  simp [processLine, take_dataHead, drop_dataHead, jsonParse_doneFrame,
    getField_doneObj_error, getField_doneObj_content, getField_doneObj_done, truthy]

/-- An error frame line with a non-empty message: the `throw` lands in the
enclosing catch clause, which continues — the line is a no-op. -/
theorem processLine_error (acc m : List Char) (hm : m ≠ []) :
    processLine acc (dataHead ++ errorFrameJson m) = ⟨acc, [], false⟩ := by
  have hm2 : m.isEmpty = false := by cases m <;> simp_all
  simp [processLine, take_dataHead, drop_dataHead, jsonParse_errorFrame,
    getField_errorObj_error, truthy, hm2]

/-- An empty line (the blank frame separator) is skipped. -/
theorem processLine_empty (acc : List Char) : processLine acc [] = ⟨acc, [], false⟩ := by
  simp [processLine, dataHead]

theorem chatProcessLine_content (acc d : List Char) (hne : d ≠ []) :
    chatProcessLine acc (dataHead ++ contentFrameJson d) = ⟨acc ++ d, [.chunk d], false⟩ := by
  have hne2 : d.isEmpty = false := by cases d <;> simp_all
  simp [chatProcessLine, take_dataHead, drop_dataHead, jsonParse_contentFrame,
    getField_contentObj_error, getField_contentObj_content, getField_contentObj_done,
    truthy, jsToAppend, hne2]

/-- In `chatStream` the done frame fires `onStreamComplete` then `onSuccess`. -/
theorem chatProcessLine_done (acc : List Char) :
    chatProcessLine acc (dataHead ++ doneFrameJson)
      = ⟨acc, [.complete acc, .success acc], true⟩ := by
  simp [chatProcessLine, take_dataHead, drop_dataHead, jsonParse_doneFrame,
    getField_doneObj_error, getField_doneObj_content, getField_doneObj_done, truthy]

theorem chatProcessLine_empty (acc : List Char) : chatProcessLine acc [] = ⟨acc, [], false⟩ := by
  simp [chatProcessLine, dataHead]

theorem escapeChar_noNL (c : Char) : ∀ x ∈ escapeChar c, x ≠ '\n' := by
  intro x hx hxeq
  subst hxeq
  by_cases h1 : c = '"'
  · simp [escapeChar, h1] at hx
  · by_cases h2 : c = '\\'
    · simp [escapeChar, h1, h2] at hx
    · by_cases h3 : c.toNat = 8
      · simp [escapeChar, h1, h2, h3] at hx
      · by_cases h4 : c.toNat = 9
        · simp [escapeChar, h1, h2, h3, h4] at hx
        · by_cases h5 : c.toNat = 10
          · simp [escapeChar, h1, h2, h3, h4, h5] at hx
          · by_cases h6 : c.toNat = 12
            · simp [escapeChar, h1, h2, h3, h4, h5, h6] at hx
            · by_cases h7 : c.toNat = 13
              · simp [escapeChar, h1, h2, h3, h4, h5, h6, h7] at hx
              · by_cases h8 : c.toNat < 32
                · have hgen : ∀ n : Nat, n < 16 → hexDigit n ≠ '\n' := by
                    intro n hn
                    interval_cases n <;> decide
                  have ha : hexDigit (c.toNat / 16) ≠ '\n' := hgen _ (by omega)
                  have hb : hexDigit (c.toNat % 16) ≠ '\n' :=
                    hgen _ (Nat.mod_lt _ (by norm_num))
                  have ha2 : ('\n' : Char) ≠ hexDigit (c.toNat / 16) :=
                    fun h => ha h.symm
                  have hb2 : ('\n' : Char) ≠ hexDigit (c.toNat % 16) :=
                    fun h => hb h.symm
                  simp [escapeChar, h1, h2, h3, h4, h5, h6, h7, h8, ha, hb, ha2, hb2,
                    show ('\n' : Char) ≠ '\\' from by decide,
                    show ('\n' : Char) ≠ 'u' from by decide,
                    show ('\n' : Char) ≠ '0' from by decide] at hx
                · simp [escapeChar, h1, h2, h3, h4, h5, h6, h7, h8] at hx
                  subst hx
                  exact h8 (by decide)

theorem jsonEscape_noNL (s : List Char) : ∀ x ∈ jsonEscape s, x ≠ '\n' := by
  intro x hx
  simp only [jsonEscape, List.mem_flatten, List.mem_map] at hx
  obtain ⟨l, ⟨c, _, rfl⟩, hxl⟩ := hx
  exact escapeChar_noNL c x hxl

theorem contentFrameJson_noNL (d : List Char) : ∀ c ∈ contentFrameJson d, c ≠ '\n' := by
  intro c hc hceq
  subst hceq
  have k1 : ¬ '\n' ∈ jsonEscape contentKey := fun hm => (jsonEscape_noNL _ _ hm) rfl
  have k2 : ¬ '\n' ∈ jsonEscape d := fun hm => (jsonEscape_noNL _ _ hm) rfl
  have k3 : ¬ '\n' ∈ jsonEscape doneKey := fun hm => (jsonEscape_noNL _ _ hm) rfl
  simp [contentFrameJson, jsonStrLit, k1, k2, k3,
    show ('\n' : Char) ≠ lbrace from by decide, show ('\n' : Char) ≠ rbrace from by decide,
    show ('\n' : Char) ≠ '"' from by decide, show ('\n' : Char) ≠ ':' from by decide,
    show ('\n' : Char) ≠ ',' from by decide, show ('\n' : Char) ≠ 'f' from by decide,
    show ('\n' : Char) ≠ 'a' from by decide, show ('\n' : Char) ≠ 'l' from by decide,
    show ('\n' : Char) ≠ 's' from by decide, show ('\n' : Char) ≠ 'e' from by decide] at hc

theorem doneFrameJson_noNL : ∀ c ∈ doneFrameJson, c ≠ '\n' := by
  intro c hc hceq
  subst hceq
  have k1 : ¬ '\n' ∈ jsonEscape contentKey := fun hm => (jsonEscape_noNL _ _ hm) rfl
  have k2 : ¬ '\n' ∈ jsonEscape ([] : List Char) := fun hm => (jsonEscape_noNL _ _ hm) rfl
  have k3 : ¬ '\n' ∈ jsonEscape doneKey := fun hm => (jsonEscape_noNL _ _ hm) rfl
  simp [doneFrameJson, jsonStrLit, k1, k2, k3,
    show ('\n' : Char) ≠ lbrace from by decide, show ('\n' : Char) ≠ rbrace from by decide,
    show ('\n' : Char) ≠ '"' from by decide, show ('\n' : Char) ≠ ':' from by decide,
    show ('\n' : Char) ≠ ',' from by decide, show ('\n' : Char) ≠ 't' from by decide,
    show ('\n' : Char) ≠ 'r' from by decide, show ('\n' : Char) ≠ 'u' from by decide,
    show ('\n' : Char) ≠ 'e' from by decide] at hc

theorem errorFrameJson_noNL (m : List Char) : ∀ c ∈ errorFrameJson m, c ≠ '\n' := by
  intro c hc hceq
  subst hceq
  have k1 : ¬ '\n' ∈ jsonEscape errorKey := fun hm => (jsonEscape_noNL _ _ hm) rfl
  have k2 : ¬ '\n' ∈ jsonEscape m := fun hm => (jsonEscape_noNL _ _ hm) rfl
  have k3 : ¬ '\n' ∈ jsonEscape doneKey := fun hm => (jsonEscape_noNL _ _ hm) rfl
  simp [errorFrameJson, jsonStrLit, k1, k2, k3,
    show ('\n' : Char) ≠ lbrace from by decide, show ('\n' : Char) ≠ rbrace from by decide,
    show ('\n' : Char) ≠ '"' from by decide, show ('\n' : Char) ≠ ':' from by decide,
    show ('\n' : Char) ≠ ',' from by decide, show ('\n' : Char) ≠ 't' from by decide,
    show ('\n' : Char) ≠ 'r' from by decide, show ('\n' : Char) ≠ 'u' from by decide,
    show ('\n' : Char) ≠ 'e' from by decide] at hc

/-- A wire line never contains a newline. -/
theorem dataLine_noNL (j : List Char) (hj : ∀ c ∈ j, c ≠ '\n') :
    ∀ c ∈ dataHead ++ j, c ≠ '\n' := by
  intro c hc
  rcases List.mem_append.mp hc with h | h
  · intro hceq
    subst hceq
    simp [dataHead] at h
  · exact hj c h

/-- The JSON text of the terminal frame for each exit path. -/
def terminalJson : Option (List Char) → List Char
  | none => doneFrameJson
  | some m => errorFrameJson m

/-- The two wire lines (frame line and blank separator) of each delta. -/
def wireLinesOf (ds : List (List Char)) : List (List Char) :=
  (ds.map (fun d => [dataHead ++ contentFrameJson d, ([] : List Char)])).flatten

/-- All complete lines carried by an encoder run's byte stream. -/
def wireLines (units : List GChunk) (failure : Option (List Char)) : List (List Char) :=
  wireLinesOf (deltas units) ++ [dataHead ++ terminalJson failure, []]

theorem utf8Encode_flatten :
    ∀ ls : List (List Char), (ls.map utf8Encode).flatten = utf8Encode ls.flatten
  | [] => by simp [utf8Encode]
  | l :: ls => by
    simp [utf8Encode_append, utf8Encode_flatten ls]

theorem linesWire_append (a b : List (List Char)) :
    linesWire (a ++ b) = linesWire a ++ linesWire b := by
  simp [linesWire]

/-- The encoder's byte stream is the UTF-8 encoding of its wire lines. -/
theorem wireBytes_text (units : List GChunk) (failure : Option (List Char)) :
    wireBytes units failure = utf8Encode (linesWire (wireLines units failure)) := by
  have hterm : terminalBlock failure = utf8Encode (linesWire [dataHead ++ terminalJson failure,
      ([] : List Char)]) := by
    cases failure with
    | none => simp [terminalBlock, terminalJson, doneBlock, linesWire, frameLine]
    | some m => simp [terminalBlock, terminalJson, errorBlock, linesWire, frameLine]
  rw [wireLines, linesWire_append, utf8Encode_append, ← hterm]
  have hmain : ∀ us : List GChunk,
      (encodeFrames us).flatten = utf8Encode (linesWire (wireLinesOf (deltas us))) := by
    intro us
    induction us with
    | nil => simp [encodeFrames, deltas, wireLinesOf, linesWire, utf8Encode]
    | cons u us ih =>
      cases hdu : deltaOf u with
      | none =>
        have hef : encodeFrames (u :: us) = encodeFrames us := by simp [encodeFrames, hdu]
        have hds : deltas (u :: us) = deltas us := by simp [deltas, hdu]
        rw [hef, hds]
        exact ih
      | some d =>
        have hef : encodeFrames (u :: us) = contentBlock d :: encodeFrames us := by
          simp [encodeFrames, hdu]
        have hds : deltas (u :: us) = d :: deltas us := by simp [deltas, hdu]
        rw [hef, List.flatten_cons, hds,
          show wireLinesOf (d :: deltas us)
            = [dataHead ++ contentFrameJson d, ([] : List Char)] ++ wireLinesOf (deltas us)
            from by simp [wireLinesOf],
          linesWire_append, utf8Encode_append, ih,
          show contentBlock d
            = utf8Encode (linesWire [dataHead ++ contentFrameJson d, ([] : List Char)])
            from by simp [contentBlock, linesWire, frameLine]]
  rw [wireBytes, hmain]

theorem wireLinesOf_noNL (ds : List (List Char)) :
    ∀ l ∈ wireLinesOf ds, ∀ c ∈ l, c ≠ '\n' := by
  intro l hl
  simp only [wireLinesOf, List.mem_flatten, List.mem_map] at hl
  obtain ⟨pair, ⟨d, _, rfl⟩, hlp⟩ := hl
  simp only [List.mem_cons, List.mem_singleton] at hlp
  rcases hlp with h | h | h
  · subst h
    exact dataLine_noNL _ (contentFrameJson_noNL d)
  · subst h
    simp
  · simp at h

theorem wireLines_noNL (units : List GChunk) (failure : Option (List Char)) :
    ∀ l ∈ wireLines units failure, ∀ c ∈ l, c ≠ '\n' := by
  intro l hl
  simp only [wireLines, List.mem_append] at hl
  rcases hl with h | h
  · exact wireLinesOf_noNL _ l h
  · simp only [List.mem_cons, List.mem_singleton] at h
    rcases h with h | h | h
    · subst h
      cases failure with
      | none => exact dataLine_noNL _ doneFrameJson_noNL
      | some m => exact dataLine_noNL _ (errorFrameJson_noNL m)
    · subst h
      simp
    · simp at h

/-- Every delta filtered through the `if (text)` truthiness check is
non-empty. -/
theorem deltas_ne_nil (units : List GChunk) : ∀ d ∈ deltas units, d ≠ [] := by
  intro d hd
  simp only [deltas, List.mem_filterMap] at hd
  obtain ⟨u, _, hu⟩ := hd
  unfold deltaOf at hu
  rcases hex : extractText u with _ | t
  · rw [hex] at hu
    simp at hu
  · rw [hex] at hu
    by_cases ht : t.isEmpty
    · simp [ht] at hu
    · simp [ht] at hu
      subst hu
      cases t with
      | nil => simp at ht
      | cons a b => simp

/-- The line loop over an entire normal wire: every delta is accumulated and
dispatched, then the done frame completes and returns. -/
theorem runLines_wire_done :
    ∀ (ds : List (List Char)) (acc : List Char), (∀ d ∈ ds, d ≠ []) →
      runLines acc (wireLinesOf ds ++ [dataHead ++ doneFrameJson, []])
        = ⟨acc ++ ds.flatten, ds.map Event.chunk ++ [.complete (acc ++ ds.flatten)], true⟩
  | [], acc, _ => by
    simp [wireLinesOf, runLines, processLine_done]
  | d :: ds, acc, h => by
    have hd : d ≠ [] := h d (by simp)
    have ih := runLines_wire_done ds (acc ++ d) (fun x hx => h x (by simp [hx]))
    have hshape : wireLinesOf (d :: ds) ++ [dataHead ++ doneFrameJson, ([] : List Char)]
        = (dataHead ++ contentFrameJson d) :: ([] : List Char) ::
          (wireLinesOf ds ++ [dataHead ++ doneFrameJson, ([] : List Char)]) := by
      simp [wireLinesOf]
    rw [hshape, runLines, processLine_content acc d hd]
    simp only [if_neg Bool.false_ne_true]
    rw [runLines, processLine_empty]
    simp only [if_neg Bool.false_ne_true]
    rw [ih]
    simp

/-- `processStream` on a whole normal encoder wire delivered in one chunk:
one `onChunk` per delta in order, then exactly one `onComplete` carrying the
concatenation, which is also the returned text. -/
theorem processStream_wire_done (units : List GChunk) :
    processStream [wireBytes units none]
      = ((deltas units).map Event.chunk ++ [.complete (deltas units).flatten],
         (deltas units).flatten) := by
  have hdec : decodeGreedy ([] ++ wireBytes units none)
      = (linesWire (wireLines units none), []) := by
    rw [List.nil_append, wireBytes_text, decodeGreedy_encode_nil]
  have hsp : splitLines ([] ++ linesWire (wireLines units none))
      = (wireLines units none, []) := by
    rw [List.nil_append]
    exact splitLines_linesWire _ (wireLines_noNL units none)
  have hlines : wireLines units none
      = wireLinesOf (deltas units) ++ [dataHead ++ doneFrameJson, []] := by
    simp [wireLines, terminalJson]
  have hrl := runLines_wire_done (deltas units) [] (deltas_ne_nil units)
  rw [List.nil_append] at hrl
  rw [hlines] at hdec hsp
  simp only [processStream, runChunks, hdec, hsp, hrl]
  simp

/-! ## The claims -/

/-- Claim C1: for every finite sequence of non-empty text deltas yielded by
the generation source, encoding with `createStreamResponse` and decoding the
produced byte stream with `StreamProcessor.processStream` on a fresh
processor returns the concatenation of the deltas, invokes `onChunk` once per
delta in emission order with that delta, and invokes `onComplete` exactly
once with the full concatenation. -/
theorem claim_c1 (units : List GChunk) :
    processStream [wireBytes units none]
      = ((deltas units).map Event.chunk ++ [Event.complete (deltas units).flatten],
         (deltas units).flatten) :=
  processStream_wire_done units

/-- Claim C3: for every byte stream produced by `createStreamResponse` and
every partition of it into consecutive chunks at arbitrary byte offsets
(including inside a multi-byte UTF-8 character), decoding the chunks on a
fresh processor yields exactly the same events and returned text as decoding
the whole stream in one piece. -/
theorem claim_c3 (units : List GChunk) (failure : Option (List Char))
    (chunks : List (List Nat)) (h : chunks.flatten = wireBytes units failure) :
    processStream chunks = processStream [wireBytes units failure] := by
  rw [← h]
  exact processStream_flatten chunks

/-- Witness for C3 at a concrete input: the wire for the single delta `é`
split in the middle of the two-byte UTF-8 sequence of `é`. -/
theorem claim_c3_witness :
    ((wireBytes [mkUnit ['é']] none).take 19 ++ (wireBytes [mkUnit ['é']] none).drop 19
        = wireBytes [mkUnit ['é']] none)
      ∧ processStream [(wireBytes [mkUnit ['é']] none).take 19,
          (wireBytes [mkUnit ['é']] none).drop 19]
        = processStream [wireBytes [mkUnit ['é']] none] := by
  refine ⟨by decide, claim_c3 [mkUnit ['é']] none _ ?_⟩
  decide

/-- Claim C2 (code bug): on Scenario B — the source yields `partial` and then
raises `boom`, so the wire is the `partial` content frame followed by the
`(error: boom, done: true)` frame — the decoder does *not* report the error:
the `throw new Error(data.error)` is caught by the enclosing malformed-JSON
catch clause, the error frame is skipped, and when the transport ends the
decoder invokes `onComplete("partial")` and resolves with `"partial"`.  The
consumer loop `chatStream` swallows the frame the same way and resolves with
`"partial"` without any terminal callback. -/
theorem claim_c2 :
    processStream [wireBytes [mkUnit ('p' :: 'a' :: 'r' :: 't' :: 'i' :: 'a' :: ['l'])]
        (some ('b' :: 'o' :: 'o' :: ['m']))]
      = ([.chunk ('p' :: 'a' :: 'r' :: 't' :: 'i' :: 'a' :: ['l']),
          .complete ('p' :: 'a' :: 'r' :: 't' :: 'i' :: 'a' :: ['l'])],
         ('p' :: 'a' :: 'r' :: 't' :: 'i' :: 'a' :: ['l']))
    ∧ chatStream [wireBytes [mkUnit ('p' :: 'a' :: 'r' :: 't' :: 'i' :: 'a' :: ['l'])]
        (some ('b' :: 'o' :: 'o' :: ['m']))]
      = ([.chunk ('p' :: 'a' :: 'r' :: 't' :: 'i' :: 'a' :: ['l'])],
         ('p' :: 'a' :: 'r' :: 't' :: 'i' :: 'a' :: ['l'])) := by
  constructor
  · decide
  · decide

/-! ## C6: transport end without a terminal frame -/

def isCompleteEv : Event → Bool
  | .complete _ => true
  | _ => false

/-- A line that does not return emits no completion event. -/
theorem processLine_no_complete (acc l : List Char) (h : (processLine acc l).term = false) :
    (processLine acc l).events.countP isCompleteEv = 0 := by
  by_cases h1 : l.take 6 = dataHead
  · rcases hj : jsonParse (l.drop 6) with _ | data
    · simp [processLine, h1, hj]
    · by_cases herr : truthy (getField data errorKey)
      · simp [processLine, h1, hj, herr]
      · by_cases hdn : truthy (getField data doneKey)
        · exfalso
          simp [processLine, h1, hj, herr, hdn] at h
        · by_cases hct : truthy (getField data contentKey)
          · simp [processLine, h1, hj, herr, hdn, hct, isCompleteEv]
          · simp [processLine, h1, hj, herr, hdn, hct]
  · simp [processLine, h1]

/-- A line loop that does not return emits no completion event. -/
theorem runLines_no_complete :
    ∀ (ls : List (List Char)) (acc : List Char), (runLines acc ls).term = false →
      (runLines acc ls).events.countP isCompleteEv = 0
  | [], acc, _ => by simp [runLines]
  | l :: ls, acc, h => by
    by_cases hterm : (processLine acc l).term
    · rw [runLines] at h
      simp only [hterm, if_true] at h
      exact absurd h (by simp [hterm])
    · rw [runLines] at h ⊢
      simp only [hterm, if_false, Bool.false_eq_true] at h ⊢
      have h1 := processLine_no_complete acc l (by simp [hterm])
      have h2 := runLines_no_complete ls (processLine acc l).text (by simpa using h)
      simp [List.countP_append, h1, h2]

/-- If no done frame is processed, the read loop's events are the chunk
events followed by exactly one completion event carrying the returned
text. -/
theorem runChunks_no_term :
    ∀ (chunks : List (List Nat)) (st : PState) (acc : List Char),
      (runChunks st acc chunks).term = false →
      (runChunks st acc chunks).events.countP isCompleteEv = 1
        ∧ (runChunks st acc chunks).events.getLast?
            = some (.complete (runChunks st acc chunks).text)
  | [], st, acc, _ => by simp [runChunks, isCompleteEv]
  | c :: cs, st, acc, h => by
    simp only [runChunks] at h ⊢
    by_cases hterm : (runLines acc (splitLines (st.buffer ++
        (decodeGreedy (st.pending ++ c)).1)).1).term = true
    · simp only [hterm, if_true] at h
      simp at h
    · simp only [hterm, if_false] at h ⊢
      simp only [Bool.not_eq_true] at hterm
      have hline := runLines_no_complete _ acc hterm
      have ih := runChunks_no_term cs ⟨(decodeGreedy (st.pending ++ c)).2,
        (splitLines (st.buffer ++ (decodeGreedy (st.pending ++ c)).1)).2⟩
        (runLines acc (splitLines (st.buffer ++
          (decodeGreedy (st.pending ++ c)).1)).1).text (by simpa using h)
      constructor
      · simp [List.countP_append, hline, ih.1]
      · have hne : (runChunks ⟨(decodeGreedy (st.pending ++ c)).2,
            (splitLines (st.buffer ++ (decodeGreedy (st.pending ++ c)).1)).2⟩
            (runLines acc (splitLines (st.buffer ++
              (decodeGreedy (st.pending ++ c)).1)).1).text cs).events ≠ [] := by
          intro hnil
          rw [hnil] at ih
          simp at ih
        simp [List.getLast?_append, ih.2, hne]

/-- Claim C6: if the transport signals end-of-data before any terminal frame
has been processed, `processStream` treats this as completion — it invokes
`onComplete` exactly once, as the last callback, with the accumulated text
(possibly empty), and returns that text. -/
theorem claim_c6 (chunks : List (List Nat))
    (h : (runChunks ⟨[], []⟩ [] chunks).term = false) :
    (processStream chunks).1.countP isCompleteEv = 1
      ∧ (processStream chunks).1.getLast? = some (.complete (processStream chunks).2) := by
  have := runChunks_no_term chunks ⟨[], []⟩ [] h
  exact ⟨this.1, this.2⟩

/-- Witness for C6: a single content frame and then end-of-data — the
decoder completes with the partial text `hi`. -/
theorem claim_c6_witness :
    (runChunks ⟨[], []⟩ [] [contentBlock ('h' :: ['i'])]).term = false
      ∧ (processStream [contentBlock ('h' :: ['i'])]).1.countP isCompleteEv = 1
      ∧ (processStream [contentBlock ('h' :: ['i'])]).1.getLast?
          = some (.complete (processStream [contentBlock ('h' :: ['i'])]).2) := by
  refine ⟨by decide, ?_, ?_⟩
  · exact (claim_c6 [contentBlock ('h' :: ['i'])] (by decide)).1
  · exact (claim_c6 [contentBlock ('h' :: ['i'])] (by decide)).2

/-! ## C10: a trailing incomplete line is discarded -/

/-- Claim C10: if the input ends while the decode buffer holds a non-empty
incomplete line (text after the last newline, with no terminator), that
partial line is never parsed: the decoder's events, the `onComplete`
argument, and the returned text are identical to those for the stream
truncated at the last newline. -/
theorem claim_c10 (s tail : List Char) (hnl : ∀ c ∈ tail, c ≠ '\n') (hne : tail ≠ []) :
    processStream [utf8Encode (s ++ '\n' :: tail)]
      = processStream [utf8Encode (s ++ ['\n'])] := by
  have hdec1 : decodeGreedy (utf8Encode (s ++ '\n' :: tail)) = (s ++ '\n' :: tail, []) :=
    decodeGreedy_encode_nil _
  have hdec2 : decodeGreedy (utf8Encode (s ++ ['\n'])) = (s ++ ['\n'], []) :=
    decodeGreedy_encode_nil _
  have hsplit1 : splitLines (s ++ '\n' :: tail)
      = ((splitLines s).1 ++ [(splitLines s).2], tail) := by
    rw [splitLines_append s ('\n' :: tail),
      splitLines_line ((splitLines s).2) tail (splitLines_buffer_noNL s),
      splitLines_noNL tail hnl]
  have hsplit2 : splitLines (s ++ ['\n'])
      = ((splitLines s).1 ++ [(splitLines s).2], []) := by
    rw [show (['\n'] : List Char) = '\n' :: [] from rfl,
      splitLines_append s ('\n' :: []),
      splitLines_line ((splitLines s).2) [] (splitLines_buffer_noNL s)]
    simp [splitLines]
  simp only [processStream, runChunks, hdec1, hdec2, List.nil_append, hsplit1, hsplit2]
  by_cases hterm : (runLines [] ((splitLines s).1 ++ [(splitLines s).2])).term = true <;>
    simp [hterm]

/-- Witness for C10: a complete content frame followed by a newline-less
partial line `data: jk` — the partial line contributes nothing. -/
theorem claim_c10_witness :
    (∀ c ∈ dataHead ++ ('j' :: ['k']), c ≠ '\n')
      ∧ dataHead ++ ('j' :: ['k']) ≠ []
      ∧ processStream [utf8Encode ((dataHead ++ contentFrameJson ['h'] ++ ['\n'])
          ++ '\n' :: (dataHead ++ ('j' :: ['k'])))]
        = processStream [utf8Encode ((dataHead ++ contentFrameJson ['h'] ++ ['\n'])
            ++ ['\n'])] :=
  ⟨by decide, by decide,
    claim_c10 (dataHead ++ contentFrameJson ['h'] ++ ['\n']) (dataHead ++ ('j' :: ['k']))
      (by decide) (by decide)⟩

/-! ## C8: malformed lines are skipped, decoding continues -/

/-- A line that is not a parseable frame is a no-op for the decoder. -/
theorem processLine_skip (acc bad : List Char)
    (hbad : bad.take 6 ≠ dataHead ∨ jsonParse (bad.drop 6) = none) :
    processLine acc bad = ⟨acc, [], false⟩ := by
  by_cases h6 : bad.take 6 = dataHead
  · rcases hbad with h | h
    · exact absurd h6 h
    · simp [processLine, h6, h]
  · simp [processLine, h6]

/-- Removing a skipped line from the line sequence changes nothing. -/
theorem runLines_insert :
    ∀ (l1 : List (List Char)) (l2 : List (List Char)) (acc bad : List Char),
      (∀ a : List Char, processLine a bad = ⟨a, [], false⟩) →
      runLines acc (l1 ++ bad :: l2) = runLines acc (l1 ++ l2)
  | [], l2, acc, bad, hskip => by
    simp only [List.nil_append, runLines, hskip]
    simp
  | l :: l1, l2, acc, bad, hskip => by
    have ih : runLines (processLine acc l).text (l1.append (bad :: l2))
        = runLines (processLine acc l).text (l1.append l2) :=
      runLines_insert l1 l2 (processLine acc l).text bad hskip
    simp only [List.cons_append, runLines, ih]

/-- Claim C8: lines that cannot be parsed as valid JSON frames are skipped
silently and do not abort decoding: a stream with such a line interleaved
among its lines produces exactly the same events and returned text as the
stream without it — in particular every subsequent well-formed content frame
is still accumulated and dispatched via `onChunk`. -/
theorem claim_c8 (pre post : List (List Char)) (bad : List Char)
    (hpre : ∀ l ∈ pre, ∀ c ∈ l, c ≠ '\n') (hpost : ∀ l ∈ post, ∀ c ∈ l, c ≠ '\n')
    (hbadnl : ∀ c ∈ bad, c ≠ '\n')
    (hbad : bad.take 6 ≠ dataHead ∨ jsonParse (bad.drop 6) = none) :
    processStream [utf8Encode (linesWire (pre ++ bad :: post))]
      = processStream [utf8Encode (linesWire (pre ++ post))] := by
  have hall1 : ∀ l ∈ pre ++ bad :: post, ∀ c ∈ l, c ≠ '\n' := by
    intro l hl
    rcases List.mem_append.mp hl with h | h
    · exact hpre l h
    · rcases List.mem_cons.mp h with h2 | h2
      · subst h2
        exact hbadnl
      · exact hpost l h2
  have hall2 : ∀ l ∈ pre ++ post, ∀ c ∈ l, c ≠ '\n' := by
    intro l hl
    rcases List.mem_append.mp hl with h | h
    · exact hpre l h
    · exact hpost l h
  have hdec1 : decodeGreedy (utf8Encode (linesWire (pre ++ bad :: post)))
      = (linesWire (pre ++ bad :: post), []) := decodeGreedy_encode_nil _
  have hdec2 : decodeGreedy (utf8Encode (linesWire (pre ++ post)))
      = (linesWire (pre ++ post), []) := decodeGreedy_encode_nil _
  have hsp1 := splitLines_linesWire _ hall1
  have hsp2 := splitLines_linesWire _ hall2
  have hrl := runLines_insert pre post [] bad (fun a => processLine_skip a bad hbad)
  simp only [processStream, runChunks, hdec1, hdec2, List.nil_append, hsp1, hsp2, hrl]

/-- Witness for C8: the unparseable line `data: not` between a content frame
and the done frame is ignored. -/
theorem claim_c8_witness :
    ((dataHead ++ ('n' :: 'o' :: ['t'])).take 6 ≠ dataHead
        ∨ jsonParse ((dataHead ++ ('n' :: 'o' :: ['t'])).drop 6) = none)
      ∧ processStream [utf8Encode (linesWire ([dataHead ++ contentFrameJson ['h']]
          ++ (dataHead ++ ('n' :: 'o' :: ['t'])) :: [dataHead ++ doneFrameJson, []]))]
        = processStream [utf8Encode (linesWire ([dataHead ++ contentFrameJson ['h']]
            ++ [dataHead ++ doneFrameJson, []]))] :=
  ⟨Or.inr rfl,
    claim_c8 [dataHead ++ contentFrameJson ['h']] [dataHead ++ doneFrameJson, []]
      (dataHead ++ ('n' :: 'o' :: ['t'])) (by decide) (by decide) (by decide)
      (Or.inr rfl)⟩

/-! ## C9: per-unit extraction and frame formation -/

/-- Splitting a single encoder frame: one `data: ` line and one blank line. -/
theorem splitLines_frameLine (j : List Char) (hj : ∀ c ∈ j, c ≠ '\n') :
    splitLines (frameLine j) = ([dataHead ++ j, []], []) := by
  have hshape : frameLine j = (dataHead ++ j) ++ '\n' :: ['\n'] := by
    simp [frameLine]
  rw [hshape, splitLines_line (dataHead ++ j) ['\n'] (dataLine_noNL j hj)]
  simp [splitLines]

/-- Claim C9: for every response unit pulled from the source,
`createStreamResponse` extracts `candidates[0].content.parts[0].text`; if any
link of that chain is absent or the text is empty, no frame is written for
that unit; otherwise exactly one frame is enqueued for it, whose bytes are
the line `data: ` + `JSON.stringify(content: d, done: false)` followed by a
blank line. -/
theorem claim_c9 (u : GChunk) (d : List Char) :
    (deltaOf u = none → encodeFrames [u] = [])
    ∧ ((extractText u = none ∨ extractText u = some []) → deltaOf u = none)
    ∧ (deltaOf u = some d →
        extractText u = some d ∧ d ≠ []
        ∧ encodeFrames [u] = [contentBlock d]
        ∧ contentBlock d = utf8Encode (frameLine (contentFrameJson d))
        ∧ jsonParse (contentFrameJson d) = some (contentObj d)
        ∧ splitLines (frameLine (contentFrameJson d)) = ([dataHead ++ contentFrameJson d, []], [])) := by
  refine ⟨?_, ?_, ?_⟩
  · intro h
    simp [encodeFrames, h]
  · intro h
    rcases h with h | h
    · simp [deltaOf, h]
    · simp [deltaOf, h]
  · intro h
    have hext : extractText u = some d ∧ d ≠ [] := by
      unfold deltaOf at h
      rcases hex : extractText u with _ | t
      · rw [hex] at h
        simp at h
      · rw [hex] at h
        by_cases ht : t.isEmpty
        · simp [ht] at h
        · simp [ht] at h
          subst h
          refine ⟨rfl, ?_⟩
          cases t with
          | nil => simp at ht
          | cons a b => simp
    refine ⟨hext.1, hext.2, ?_, rfl, jsonParse_contentFrame d,
      splitLines_frameLine _ (contentFrameJson_noNL d)⟩
    simp [encodeFrames, h]

/-- Witness for C9 at concrete inputs: the unit yielding `hi` produces its
single frame, and a unit with no candidates produces nothing. -/
theorem claim_c9_witness :
    deltaOf (mkUnit ('h' :: ['i'])) = some ('h' :: ['i'])
      ∧ encodeFrames [mkUnit ('h' :: ['i'])] = [contentBlock ('h' :: ['i'])]
      ∧ deltaOf ⟨none⟩ = none
      ∧ encodeFrames [(⟨none⟩ : GChunk)] = [] :=
  ⟨by decide,
   ((claim_c9 (mkUnit ('h' :: ['i'])) ('h' :: ['i'])).2.2 (by decide)).2.2.1,
   by decide,
   (claim_c9 (⟨none⟩ : GChunk) []).1 (by decide)⟩

/-! ## C5: exactly one terminal frame, then close -/

/-- Does an enqueued byte block carry a terminal frame (done set or error
present), judged by decoding and parsing its first line? -/
def isTerminalBlock (bytes : List Nat) : Bool :=
  match (splitLines (decodeGreedy bytes).1).1 with
  | [] => false
  | l :: _ =>
    if l.take 6 = dataHead then
      match jsonParse (l.drop 6) with
      | some j => truthy (getField j doneKey) || (getField j errorKey).isSome
      | none => false
    else false

theorem isTerminalBlock_contentBlock (d : List Char) :
    isTerminalBlock (contentBlock d) = false := by
  rw [isTerminalBlock, show decodeGreedy (contentBlock d)
      = (frameLine (contentFrameJson d), []) from decodeGreedy_encode_nil _,
    splitLines_frameLine _ (contentFrameJson_noNL d)]
  simp [take_dataHead, drop_dataHead, jsonParse_contentFrame, getField_contentObj_done,
    getField_contentObj_error, truthy]

theorem isTerminalBlock_terminal (failure : Option (List Char)) :
    isTerminalBlock (terminalBlock failure) = true := by
  cases failure with
  | none =>
    rw [terminalBlock, doneBlock, isTerminalBlock, show decodeGreedy
        (utf8Encode (frameLine doneFrameJson)) = (frameLine doneFrameJson, []) from
        decodeGreedy_encode_nil _,
      splitLines_frameLine _ doneFrameJson_noNL]
    simp [take_dataHead, drop_dataHead, jsonParse_doneFrame, getField_doneObj_done, truthy]
  | some m =>
    rw [terminalBlock, errorBlock, isTerminalBlock, show decodeGreedy
        (utf8Encode (frameLine (errorFrameJson m))) = (frameLine (errorFrameJson m), []) from
        decodeGreedy_encode_nil _,
      splitLines_frameLine _ (errorFrameJson_noNL m)]
    simp [take_dataHead, drop_dataHead, jsonParse_errorFrame, getField_errorObj_error, truthy]

theorem encodeFrames_all_nonterminal (units : List GChunk) :
    (encodeFrames units).all (fun b => !isTerminalBlock b) = true := by
  rw [List.all_eq_true]
  intro b hb
  simp only [encodeFrames, List.mem_filterMap] at hb
  obtain ⟨u, _, hu⟩ := hb
  rcases hd : deltaOf u with _ | d
  · rw [hd] at hu
    simp at hu
  · rw [hd] at hu
    simp at hu
    subst hu
    simp [isTerminalBlock_contentBlock]

/-- Claim C5: on every run of `createStreamResponse` — normal termination
(including zero deltas) or a raise while pulling — the write trace is the
content frames, then exactly one terminal frame (`(content: empty,
done: true)` on exhaustion, `(error: m, done: true)` on failure), then a
single close; the terminal frame is the last write, no content frame is
terminal, and the transport is closed exactly once, after it. -/
theorem claim_c5 (units : List GChunk) (failure : Option (List Char)) :
    streamWrites units failure
        = (encodeFrames units).map WAction.enqueue
          ++ [.enqueue (terminalBlock failure), .close]
      ∧ (streamWrites units failure).count WAction.close = 1
      ∧ (streamWrites units failure).getLast? = some .close
      ∧ (streamWrites units failure).dropLast.getLast?
          = some (.enqueue (terminalBlock failure))
      ∧ isTerminalBlock (terminalBlock failure) = true
      ∧ (encodeFrames units).all (fun b => !isTerminalBlock b) = true := by
  have hcount : ∀ bs : List (List Nat), (bs.map WAction.enqueue).count WAction.close = 0 := by
    intro bs
    induction bs with
    | nil => simp
    | cons b bs ih => simp [List.count_cons, ih]
  have hlast : ∀ (a : List WAction) (x y : WAction),
      (a ++ [x, y]).getLast? = some y ∧ (a ++ [x, y]).dropLast.getLast? = some x := by
    intro a x y
    constructor
    · simp [List.getLast?_append]
    · rw [show a ++ [x, y] = (a ++ [x]) ++ [y] from by simp, List.dropLast_concat]
      simp [List.getLast?_append]
  refine ⟨rfl, ?_, ?_, ?_, isTerminalBlock_terminal failure,
    encodeFrames_all_nonterminal units⟩
  · simp [streamWrites, List.count_append, hcount]
  · exact (hlast _ _ _).1
  · exact (hlast _ _ _).2

/-! ## C7: the decode buffer across `processStream` calls -/

/-- `StreamProcessor.reset()`: clears the line buffer only (the platform
decoder's pending bytes are untouched). -/
def resetSt (st : PState) : PState := ⟨st.pending, []⟩

/-- Counterexample to C7 as stated: `processStream` does not clear the
instance buffer on entry.  A first call whose stream ends in the middle of a
line leaves that text in the buffer; a second call on the same instance then
parses a frame out of the leftover (`data: ` + the new chunk), producing a
chunk event and the text `h`, while the same call on a fresh processor
produces no chunk event and empty text. -/
theorem claim_c7_counterexample :
    (runChunks ⟨[], []⟩ [] [utf8Encode dataHead]).state.buffer ≠ []
      ∧ runChunks (runChunks ⟨[], []⟩ [] [utf8Encode dataHead]).state []
          [utf8Encode (contentFrameJson ['h'] ++ ['\n'])]
        ≠ runChunks ⟨[], []⟩ [] [utf8Encode (contentFrameJson ['h'] ++ ['\n'])] := by
  constructor
  · decide
  · decide

/-- Claim C7 amended: the decode buffer and the decoder's pending bytes are
instance fields that `processStream` never clears, so they carry over between
calls on one `StreamProcessor`: a call starting in state `(p, b)` behaves
exactly — events, returned text, final state — like a call on a fresh
processor with the leftover (re-encoded buffer text followed by the pending
bytes) prepended as an initial chunk.  Only a freshly constructed processor
(state `([], [])`) or `reset()` gives an empty buffer, so isolation between
streams holds only when each request uses its own processor instance. -/
theorem claim_c7 (p : List Nat) (b : List Char) (chunks : List (List Nat))
    (hp : IsPending p) (hb : NoNL b) :
    runChunks ⟨p, b⟩ [] chunks = runChunks ⟨[], []⟩ [] ((utf8Encode b ++ p) :: chunks)
      ∧ (resetSt ⟨p, b⟩).buffer = [] := by
  have hp2 : decodeGreedy p = ([], p) := hp
  have hdec : decodeGreedy ([] ++ (utf8Encode b ++ p)) = (b, p) := by
    rw [List.nil_append, decodeGreedy_encode, hp2]
    simp
  have hsp : splitLines ([] ++ b) = ([], b) := by
    rw [List.nil_append]
    exact splitLines_noNL b hb
  constructor
  · conv_rhs => rw [runChunks]
    simp only [hdec, hsp, runLines]
    simp
  · rfl

/-- Witness for C7 amended, at a concrete carried-over state: pending
`[194]` (half of a two-byte character) and buffer `data: `. -/
theorem claim_c7_witness :
    IsPending [194] ∧ NoNL dataHead
      ∧ runChunks ⟨[194], dataHead⟩ [] [[161] ++ utf8Encode (contentFrameJson ['h'] ++ ['\n'])]
        = runChunks ⟨[], []⟩ []
            [utf8Encode dataHead ++ [194],
             [161] ++ utf8Encode (contentFrameJson ['h'] ++ ['\n'])]
      ∧ (resetSt ⟨[194], dataHead⟩).buffer = [] := by
  have hp : IsPending [194] := by
    show decodeGreedy [194] = ([], [194])
    decide
  have hb : NoNL dataHead := by
    show ∀ c ∈ dataHead, c ≠ '\n'
    decide
  have h := claim_c7 [194] dataHead
    [[161] ++ utf8Encode (contentFrameJson ['h'] ++ ['\n'])] hp hb
  exact ⟨hp, hb, h.1, h.2⟩

/-! ## C4: `chatStream` versus the stream processor -/

/-- A wire frame of a normal encoder stream, for stating frame-aligned
chunkings. -/
inductive WFrame where
  | content (d : List Char)
  | done
deriving DecidableEq

/-- The encoded bytes of one wire frame. -/
def blockOf : WFrame → List Nat
  | .content d => contentBlock d
  | .done => doneBlock

/-- The bytes of one network chunk made of whole frames. -/
def groupBytes (g : List WFrame) : List Nat := (g.map blockOf).flatten

theorem contentBlocks_text :
    ∀ ds : List (List Char),
      (ds.map contentBlock).flatten = utf8Encode (linesWire (wireLinesOf ds))
  | [] => by simp [wireLinesOf, linesWire, utf8Encode]
  | d :: ds => by
    rw [List.map_cons, List.flatten_cons, contentBlocks_text ds,
      show wireLinesOf (d :: ds)
        = [dataHead ++ contentFrameJson d, ([] : List Char)] ++ wireLinesOf ds from by
        simp [wireLinesOf],
      linesWire_append, utf8Encode_append,
      show contentBlock d
        = utf8Encode (linesWire [dataHead ++ contentFrameJson d, ([] : List Char)]) from by
        simp [contentBlock, linesWire, frameLine]]

theorem groupBytes_content (ds : List (List Char)) :
    groupBytes (ds.map .content) = utf8Encode (linesWire (wireLinesOf ds)) := by
  rw [groupBytes, show (ds.map WFrame.content).map blockOf = ds.map contentBlock from by
    simp [List.map_map]
    intro a _
    rfl, contentBlocks_text]

theorem groupBytes_done (ds : List (List Char)) :
    groupBytes (ds.map .content ++ [.done])
      = utf8Encode (linesWire (wireLinesOf ds
          ++ [dataHead ++ doneFrameJson, ([] : List Char)])) := by
  rw [groupBytes, List.map_append, List.flatten_append,
    show (ds.map WFrame.content).map blockOf = ds.map contentBlock from by
      simp [List.map_map]
      intro a _
      rfl,
    contentBlocks_text, linesWire_append, utf8Encode_append]
  simp [blockOf, doneBlock, linesWire, frameLine]

/-- The chat line loop over a chunk of content frames (with the trailing
empty split segment): accumulate and dispatch each delta, no termination. -/
theorem chatRunLines_contentGroup :
    ∀ (ds : List (List Char)) (acc : List Char), (∀ d ∈ ds, d ≠ []) →
      chatRunLines acc (wireLinesOf ds ++ [[]])
        = ⟨acc ++ ds.flatten, ds.map Event.chunk, false⟩
  | [], acc, _ => by
    simp [wireLinesOf, chatRunLines, chatProcessLine_empty]
  | d :: ds, acc, h => by
    have hd : d ≠ [] := h d (by simp)
    have ih := chatRunLines_contentGroup ds (acc ++ d) (fun x hx => h x (by simp [hx]))
    have hshape : wireLinesOf (d :: ds) ++ [([] : List Char)]
        = (dataHead ++ contentFrameJson d) :: ([] : List Char) ::
          (wireLinesOf ds ++ [[]]) := by
      simp [wireLinesOf]
    rw [hshape, chatRunLines, chatProcessLine_content acc d hd]
    simp only [if_neg Bool.false_ne_true]
    rw [chatRunLines, chatProcessLine_empty]
    simp only [if_neg Bool.false_ne_true]
    rw [ih]
    simp

/-- The chat line loop over a terminal chunk: deltas, then the done frame
fires `onStreamComplete` and `onSuccess` and returns. -/
theorem chatRunLines_doneGroup :
    ∀ (ds : List (List Char)) (acc : List Char), (∀ d ∈ ds, d ≠ []) →
      chatRunLines acc ((wireLinesOf ds ++ [dataHead ++ doneFrameJson, ([] : List Char)])
          ++ [[]])
        = ⟨acc ++ ds.flatten,
           ds.map Event.chunk ++ [.complete (acc ++ ds.flatten), .success (acc ++ ds.flatten)],
           true⟩
  | [], acc, _ => by
    have hshape : (wireLinesOf [] ++ [dataHead ++ doneFrameJson, ([] : List Char)])
        ++ [([] : List Char)]
        = (dataHead ++ doneFrameJson) :: ([] : List Char) :: [[]] := by
      simp [wireLinesOf]
    rw [hshape, chatRunLines, chatProcessLine_done]
    simp
  | d :: ds, acc, h => by
    have hd : d ≠ [] := h d (by simp)
    have ih := chatRunLines_doneGroup ds (acc ++ d) (fun x hx => h x (by simp [hx]))
    have hshape : (wireLinesOf (d :: ds) ++ [dataHead ++ doneFrameJson, ([] : List Char)])
        ++ [([] : List Char)]
        = (dataHead ++ contentFrameJson d) :: ([] : List Char) ::
          ((wireLinesOf ds ++ [dataHead ++ doneFrameJson, ([] : List Char)]) ++ [[]]) := by
      simp [wireLinesOf]
    rw [hshape, chatRunLines, chatProcessLine_content acc d hd]
    simp only [if_neg Bool.false_ne_true]
    rw [chatRunLines, chatProcessLine_empty]
    simp only [if_neg Bool.false_ne_true]
    rw [ih]
    simp

/-- One `chatStream` read iteration over a frame-aligned content chunk. -/
theorem chatStep_content (ds : List (List Char)) (acc : List Char) (h : ∀ d ∈ ds, d ≠ []) :
    chatRunLines acc (chatLines (flushDecode (groupBytes (ds.map .content))))
      = ⟨acc ++ ds.flatten, ds.map Event.chunk, false⟩ := by
  rw [groupBytes_content]
  have hdec := decodeGreedy_encode_nil (linesWire (wireLinesOf ds))
  have hsp := splitLines_linesWire _ (wireLinesOf_noNL ds)
  rw [show flushDecode (utf8Encode (linesWire (wireLinesOf ds)))
      = linesWire (wireLinesOf ds) from by simp [flushDecode, hdec]]
  rw [show chatLines (linesWire (wireLinesOf ds)) = wireLinesOf ds ++ [[]] from by
    simp [chatLines, hsp]]
  exact chatRunLines_contentGroup ds acc h

/-- One `chatStream` read iteration over a frame-aligned terminal chunk. -/
theorem chatStep_done (ds : List (List Char)) (acc : List Char) (h : ∀ d ∈ ds, d ≠ []) :
    chatRunLines acc (chatLines (flushDecode (groupBytes (ds.map .content ++ [.done]))))
      = ⟨acc ++ ds.flatten,
         ds.map Event.chunk ++ [.complete (acc ++ ds.flatten), .success (acc ++ ds.flatten)],
         true⟩ := by
  rw [groupBytes_done]
  have hlnl : ∀ l ∈ wireLinesOf ds ++ [dataHead ++ doneFrameJson, ([] : List Char)],
      ∀ c ∈ l, c ≠ '\n' := by
    intro l hl
    rcases List.mem_append.mp hl with h2 | h2
    · exact wireLinesOf_noNL ds l h2
    · rcases List.mem_cons.mp h2 with h3 | h3
      · subst h3
        exact dataLine_noNL _ doneFrameJson_noNL
      · rcases List.mem_singleton.mp h3 with rfl
        simp
  have hdec := decodeGreedy_encode_nil
    (linesWire (wireLinesOf ds ++ [dataHead ++ doneFrameJson, ([] : List Char)]))
  have hsp := splitLines_linesWire _ hlnl
  rw [show flushDecode (utf8Encode (linesWire (wireLinesOf ds
      ++ [dataHead ++ doneFrameJson, ([] : List Char)])))
      = linesWire (wireLinesOf ds ++ [dataHead ++ doneFrameJson, ([] : List Char)]) from by
    simp [flushDecode, hdec]]
  rw [show chatLines (linesWire (wireLinesOf ds
      ++ [dataHead ++ doneFrameJson, ([] : List Char)]))
      = (wireLinesOf ds ++ [dataHead ++ doneFrameJson, ([] : List Char)]) ++ [[]] from by
    simp [chatLines, hsp]]
  exact chatRunLines_doneGroup ds acc h

/-- Splitting a frame-aligned group off the front of a normal wire's frame
sequence. -/
theorem group_split :
    ∀ (g R : List WFrame) (ds : List (List Char)),
      g ++ R = ds.map .content ++ [.done] →
      (∃ ds1 ds2, ds = ds1 ++ ds2 ∧ g = ds1.map .content
        ∧ R = ds2.map .content ++ [.done])
      ∨ (g = ds.map .content ++ [.done] ∧ R = [])
  | [], R, ds, h => by
    left
    exact ⟨[], ds, by simp, rfl, by simpa using h⟩
  | f :: g, R, ds, h => by
    cases ds with
    | nil =>
      simp only [List.map_nil, List.nil_append, List.cons_append, List.cons.injEq] at h
      obtain ⟨rfl, h2⟩ := h
      have hg : g = [] ∧ R = [] := by
        constructor
        · cases g with
          | nil => rfl
          | cons x xs => simp at h2
        · cases g with
          | nil => simpa using h2
          | cons x xs => simp at h2
      right
      simp [hg.1, hg.2]
    | cons d ds' =>
      simp only [List.map_cons, List.cons_append, List.cons.injEq] at h
      obtain ⟨rfl, h2⟩ := h
      rcases group_split g R ds' h2 with ⟨ds1, ds2, rfl, rfl, hR⟩ | ⟨rfl, hR⟩
      · left
        exact ⟨d :: ds1, ds2, by simp, by simp, hR⟩
      · right
        simp [hR]

/-- The `chatStream` read loop over any frame-aligned chunking of a normal
wire: every delta is dispatched and accumulated, and the done frame fires
`onStreamComplete` and `onSuccess`. -/
theorem chat_aligned :
    ∀ (groups : List (List WFrame)) (ds : List (List Char)) (acc : List Char),
      groups.flatten = ds.map .content ++ [.done] → (∀ d ∈ ds, d ≠ []) →
      chatRun acc (groups.map groupBytes)
        = (acc ++ ds.flatten,
           ds.map Event.chunk
             ++ [.complete (acc ++ ds.flatten), .success (acc ++ ds.flatten)])
  | [], ds, acc, h, _ => by
    exfalso
    have := congrArg List.length h
    simp at this
  | g :: gs, ds, acc, h, hne => by
    rw [List.flatten_cons] at h
    rcases group_split g gs.flatten ds h with ⟨ds1, ds2, rfl, rfl, hR⟩ | ⟨rfl, _⟩
    · have hne1 : ∀ d ∈ ds1, d ≠ [] := fun d hd => hne d (by simp [hd])
      have hne2 : ∀ d ∈ ds2, d ≠ [] := fun d hd => hne d (by simp [hd])
      have ih := chat_aligned gs ds2 (acc ++ ds1.flatten) hR hne2
      rw [List.map_cons, chatRun, chatStep_content ds1 acc hne1]
      simp only [if_neg Bool.false_ne_true]
      rw [ih]
      simp
    · rw [List.map_cons, chatRun, chatStep_done ds acc hne]
      simp

/-- Counterexample to C4 as stated: the wire for the single delta `A`, split
at byte offset 19 — in the middle of the content frame's JSON line.
`processStream` buffers the partial line and still accumulates `A`;
`chatStream`, which carries no buffer between chunks, parses nothing from
either piece of the frame and returns the empty accumulator. -/
theorem claim_c4_counterexample :
    (chatStream [(wireBytes [mkUnit ['A']] none).take 19,
        (wireBytes [mkUnit ['A']] none).drop 19]).2
      ≠ (processStream [(wireBytes [mkUnit ['A']] none).take 19,
          (wireBytes [mkUnit ['A']] none).drop 19]).2 := by
  decide

/-- Claim C4 amended: `chatStream` matches the decode contract of
`StreamProcessor.processStream` only for partitions of a normally terminated
encoder stream that are aligned to frame boundaries (each network chunk a
concatenation of whole frames).  On every such partition it produces the same
accumulated text, the same ordered chunk callbacks, and the completion
callback with the same full text, followed by its additional `onSuccess`
callback.  (For partitions that split a frame or a multi-byte character the
contracts diverge, as the counterexample shows: `chatStream` has no carry
buffer and no streaming decoder.  On an error-terminated wire the two also
differ in their terminal behaviour: `processStream` still fires `onComplete`
at end-of-data while `chatStream` returns with no terminal callback.) -/
theorem claim_c4 (units : List GChunk) (groups : List (List WFrame))
    (hg : groups.flatten = (deltas units).map WFrame.content ++ [WFrame.done]) :
    chatStream (groups.map groupBytes)
      = ((processStream [wireBytes units none]).1
          ++ [Event.success (processStream [wireBytes units none]).2],
         (processStream [wireBytes units none]).2) := by
  have h := chat_aligned groups (deltas units) [] hg (deltas_ne_nil units)
  rw [processStream_wire_done]
  simp [chatStream, h]

/-- Witness for C4 at a concrete frame-aligned chunking: deltas `h`, `i`,
chunked as one content frame, then the second content frame together with the
done frame. -/
theorem claim_c4_witness :
    (([[WFrame.content ['h']], [WFrame.content ['i'], WFrame.done]]
        : List (List WFrame)).flatten
      = (deltas [mkUnit ['h'], mkUnit ['i']]).map WFrame.content ++ [WFrame.done])
    ∧ chatStream (([[WFrame.content ['h']], [WFrame.content ['i'], WFrame.done]]
        : List (List WFrame)).map groupBytes)
      = ((processStream [wireBytes [mkUnit ['h'], mkUnit ['i']] none]).1
          ++ [Event.success (processStream [wireBytes [mkUnit ['h'], mkUnit ['i']] none]).2],
         (processStream [wireBytes [mkUnit ['h'], mkUnit ['i']] none]).2) :=
  ⟨by decide, claim_c4 [mkUnit ['h'], mkUnit ['i']]
    [[WFrame.content ['h']], [WFrame.content ['i'], WFrame.done]] (by decide)⟩
